import Mathlib

/-!
Shallow embedding of `src/lib/dijkstra.ts`: the `dijkstra` shortest-path engine
and its `PriorityQueue` collaborator.

Modelling conventions:
* JS objects (`Graph`, the `distances` and `previousNodes` tables) are
  association lists in key-insertion order.  A JS object cannot repeat a key,
  so general theorems carry a `Nodup` hypothesis on the key lists.
  Assignment `obj[k] = v` overwrites the binding when the key is present and
  appends it otherwise (`setA`).
* JS numbers appearing here are the non-negative integer edge weights plus the
  `Infinity` sentinel, modelled by `WithTop Nat`; `Infinity + w = Infinity` and
  `Infinity < x` is false, matching IEEE behaviour on these values.
* `elements.sort((a, b) => a.priority - b.priority)` is a stable sort on the
  priorities.  (`Infinity - Infinity` is `NaN`, which the engine's TimSort
  treats as "keep relative order", i.e. exactly like equal priorities.)
  We implement the stable sort as left-to-right insertion sort.
* The JS `while` loops have no fuel; the Lean model threads an explicit fuel.
  The main loop removes one queue entry per iteration and never inserts, so
  fuel = initial queue length is proved sufficient; the reconstruction walks
  get fuel `previousNodes.length + 1`, sufficient because predecessor chains
  visit distinct table keys.
* `!currentNode` (line 32 of the source) is true for the empty string, so a
  node named `""` is skipped exactly like an `Infinity`-distance node.
-/

namespace DijkstraTs

abbrev Node := String

/-- JS numbers used by the engine: naturals plus the `Infinity` sentinel. -/
abbrev Dist := WithTop Nat

/-- `interface Graph { [node: string]: { [neighbor: string]: number } }`. -/
abbrev Graph := List (Node × List (Node × Nat))

/-- `interface DijkstraResult { path: string[]; distance: number }`. -/
structure DijkstraResult where
  path : List Node
  distance : Dist
deriving DecidableEq, Repr

/-- Object property read `obj[k]`: first binding of the key, if any. -/
def lookupA {α : Type} : List (Node × α) → Node → Option α
  | [], _ => none
  | kv :: rest, k => if kv.1 = k then some kv.2 else lookupA rest k

/-- Object property write `obj[k] = v`: overwrite the binding when the key is
present, append it otherwise. -/
def setA {α : Type} : List (Node × α) → Node → α → List (Node × α)
  | [], k, v => [(k, v)]
  | kv :: rest, k, v => if kv.1 = k then (k, v) :: rest else kv :: setA rest k v

/-- The key list of an object, in insertion order. -/
def keys {α : Type} (l : List (Node × α)) : List Node := l.map Prod.fst

/-- Weight of the edge `u → v`: `graph[u][v]`. -/
def edgeWeight? (g : Graph) (u v : Node) : Option Nat :=
  (lookupA g u).bind fun adj => lookupA adj v

/-- An entry of the priority queue: `{ element, priority }`. -/
structure PQEntry where
  element : Node
  priority : Dist
deriving DecidableEq, Repr

/-- Stable insertion of an entry into a list: the new entry goes after every
entry whose priority is `≤` its own, as a stable sort places a later element. -/
def sortInsert (e : PQEntry) : List PQEntry → List PQEntry
  | [] => [e]
  | x :: xs => if x.priority ≤ e.priority then x :: sortInsert e xs else e :: x :: xs

/-- `elements.sort((a, b) => a.priority - b.priority)`: stable sort by
priority, as left-to-right insertion sort. -/
def sortEntries (l : List PQEntry) : List PQEntry :=
  l.foldl (fun acc e => sortInsert e acc) []

/-- `class PriorityQueue { private elements: { element; priority }[] }`. -/
structure PriorityQueue where
  elements : List PQEntry
deriving DecidableEq, Repr

/-- `enqueue(element, priority)`: push then re-sort. -/
def PriorityQueue.enqueue (q : PriorityQueue) (element : Node) (priority : Dist) :
    PriorityQueue :=
  ⟨sortEntries (q.elements ++ [⟨element, priority⟩])⟩

/-- `dequeue()`: `shift`, returning the removed entry and the remaining queue. -/
def PriorityQueue.dequeue (q : PriorityQueue) : Option PQEntry × PriorityQueue :=
  (q.elements.head?, ⟨q.elements.tail⟩)

/-- `isEmpty()`. -/
def PriorityQueue.isEmpty (q : PriorityQueue) : Bool :=
  q.elements.length = 0

/-- `findIndex`/in-place priority write of `updatePriority`: replace the
priority of the first entry for the element; `none` when no entry exists. -/
def setFirstPriority? : List PQEntry → Node → Dist → Option (List PQEntry)
  | [], _, _ => none
  | e :: es, x, p =>
    if e.element = x then some (⟨e.element, p⟩ :: es)
    else (setFirstPriority? es x p).map (e :: ·)

/-- `updatePriority(element, newPriority)`: rewrite the entry in place when it
exists, then re-sort; no-op when the element is not queued. -/
def PriorityQueue.updatePriority (q : PriorityQueue) (element : Node)
    (newPriority : Dist) : PriorityQueue :=
  match setFirstPriority? q.elements element newPriority with
  | some l => ⟨sortEntries l⟩
  | none => q

/-- The engine's mutable state: the two tables and the frontier. -/
structure DState where
  distances : List (Node × Dist)
  previousNodes : List (Node × Option Node)
  pq : PriorityQueue
deriving DecidableEq, Repr

/-- One turn of the initialization loop, lines 18-27: set the node's distance
(0 for the start node, `Infinity` otherwise), enqueue it, and set its
predecessor to `null`. -/
def initStep (startNode : Node) (st : DState) (kv : Node × List (Node × Nat)) : DState :=
  if kv.1 = startNode then
    { distances := setA st.distances kv.1 0,
      previousNodes := setA st.previousNodes kv.1 none,
      pq := st.pq.enqueue kv.1 0 }
  else
    { distances := setA st.distances kv.1 ⊤,
      previousNodes := setA st.previousNodes kv.1 none,
      pq := st.pq.enqueue kv.1 ⊤ }

/-- Lines 17-27: initialize both tables and seed the frontier, one graph key at
a time in insertion order. -/
def initState (graph : Graph) (startNode : Node) : DState :=
  graph.foldl (initStep startNode) ⟨[], [], ⟨[]⟩⟩

/-- Lines 98-107: relax one neighbor of `currentNode`.  The candidate distance
re-reads `distances[currentNode]` as the source does; the comparison
`newDistance < distances[neighbor]` is false when the neighbor has no binding
(JS comparison with `undefined`). -/
def relaxStep (currentNode : Node) (st : DState) (nw : Node × Nat) : DState :=
  let newDistance := (lookupA st.distances currentNode).getD ⊤ + (nw.2 : Dist)
  match lookupA st.distances nw.1 with
  | none => st
  | some dn =>
    if newDistance < dn then
      { distances := setA st.distances nw.1 newDistance,
        previousNodes := setA st.previousNodes nw.1 (some currentNode),
        pq := st.pq.updatePriority nw.1 newDistance }
    else st

/-- The `for (const neighbor in graph[currentNode])` loop. -/
def relaxAll (currentNode : Node) (st : DState) (adj : List (Node × Nat)) : DState :=
  adj.foldl (relaxStep currentNode) st

/-- Lines 39-47: the first reconstruction walk.  `tempNode` is `Option Node`
(`none` is JS `null`); the walk stops when `tempNode` is `null` or its key is
absent, breaks at the start node, and aborts the whole call (`return null`,
modelled by `none`) when the next predecessor is falsy (`null` or `""`) while
`startNode ≠ endNode`. -/
def walk1 (prev : List (Node × Option Node)) (startNode endNode : Node) :
    Nat → Option Node → List Node → Option (List Node)
  | 0, _, path => some path
  | _ + 1, none, path => some path
  | fuel + 1, some t, path =>
    match lookupA prev t with
    | none => some path
    | some pt =>
      let path' := t :: path
      if t = startNode then some path'
      else if (pt = none ∨ pt = some "") ∧ startNode ≠ endNode then none
      else walk1 prev startNode endNode fuel pt path'

/-- Lines 76-82: the fallback reconstruction walk.  It stops on `null` or
`undefined` (both `none` here: a missing key makes the next check fail) and
breaks at the start node. -/
def walk2 (prev : List (Node × Option Node)) (startNode : Node) :
    Nat → Option Node → List Node → List Node
  | 0, _, path => path
  | _ + 1, none, path => path
  | fuel + 1, some c, path =>
    let path' := c :: path
    if c = startNode then path'
    else
      match lookupA prev c with
      | none => path'
      | some pc => walk2 prev startNode fuel pc path'

/-- Lines 36-94: path reconstruction, entered when the dequeued node equals
`endNode`.  Mirrors the source's branch structure: the line 49 prefix fix-up,
the line 58 guard, the line 63 finiteness check, the line 71 push, the line 72
fallback walk with its own guard, and the line 93 return.  The `.getD ⊤` on
the end node's distance is never exercised: the dequeued node is always a
graph key, hence a `distances` key. -/
def reconstructResult (startNode endNode : Node)
    (distances : List (Node × Dist)) (previousNodes : List (Node × Option Node)) :
    Option DijkstraResult :=
  let dEnd := lookupA distances endNode
  match walk1 previousNodes startNode endNode (previousNodes.length + 1)
      (some endNode) [] with
  | none => none
  | some path0 =>
    let path1 :=
      if path0.head? ≠ some startNode ∧ startNode = endNode then startNode :: path0
      else path0
    if path1.head? ≠ some startNode then
      if dEnd ≠ some ⊤ then
        if path1 = [] ∧ startNode = endNode then
          some ⟨path1 ++ [startNode], dEnd.getD ⊤⟩
        else if path1.head? ≠ some startNode then
          let rp := walk2 previousNodes startNode (previousNodes.length + 1)
            (some endNode) []
          if rp.head? = some startNode ∧ dEnd ≠ some ⊤ then
            some ⟨rp, dEnd.getD ⊤⟩
          else none
        else some ⟨path1, dEnd.getD ⊤⟩
      else none
    else some ⟨path1, dEnd.getD ⊤⟩

/-- One iteration of the `while (!pq.isEmpty())` loop, lines 29-107.
`Sum.inl r` means the call returns `r` (`none` is the `null` result);
`Sum.inr st'` means the loop continues in state `st'`.  The dequeued node is
skipped when its name is falsy (`""`) or its recorded distance is `Infinity`;
reconstruction runs when it equals `endNode`; otherwise its neighbors are
relaxed (line 96 skips a node with no adjacency object). -/
def loopIter (graph : Graph) (startNode endNode : Node) (st : DState) :
    Sum (Option DijkstraResult) DState :=
  match st.pq.elements with
  | [] => Sum.inl none
  | en :: rest =>
    let currentNode := en.element
    let st' : DState := { st with pq := ⟨rest⟩ }
    if currentNode = "" ∨ lookupA st'.distances currentNode = some ⊤ then
      Sum.inr st'
    else if currentNode = endNode then
      Sum.inl (reconstructResult startNode endNode st'.distances st'.previousNodes)
    else
      match lookupA graph currentNode with
      | none => Sum.inr st'
      | some adj => Sum.inr (relaxAll currentNode st' adj)

/-- The main loop with fuel.  `none` is fuel exhaustion (proved unreachable for
fuel = queue length, since each iteration removes exactly one entry);
`some r` is the function's return value `r`. -/
def dijkstraLoopE (graph : Graph) (startNode endNode : Node) :
    Nat → DState → Option (Option DijkstraResult)
  | 0, st => if st.pq.elements = [] then some none else none
  | fuel + 1, st =>
    if st.pq.elements = [] then some none
    else
      match loopIter graph startNode endNode st with
      | Sum.inl r => some r
      | Sum.inr st' => dijkstraLoopE graph startNode endNode fuel st'

/-- `dijkstra(graph, startNode, endNode)`. -/
def dijkstra (graph : Graph) (startNode endNode : Node) : Option DijkstraResult :=
  let st := initState graph startNode
  (dijkstraLoopE graph startNode endNode st.pq.elements.length st).getD none

/-! Specification-side notions used by the claims: paths of the graph and their
total weight. -/

/-- A start-to-end path of the graph: a nonempty node sequence whose nodes are
graph keys and whose consecutive pairs are recorded edges. -/
inductive IsPath (g : Graph) : Node → Node → List Node → Prop
  | single (v : Node) (h : (lookupA g v).isSome) : IsPath g v v [v]
  | cons (u v t : Node) (w : Nat) (p : List Node) (hw : edgeWeight? g u v = some w)
      (hp : IsPath g v t p) : IsPath g u t (u :: p)

/-- Total weight of a node sequence: the sum of the recorded weights of its
consecutive pairs. -/
def pathWeight (g : Graph) : List Node → Nat
  | u :: v :: rest => (edgeWeight? g u v).getD 0 + pathWeight g (v :: rest)
  | _ => 0

/-- The spec's symmetry invariant: whenever `v` is recorded as a neighbor of
`u` with weight `w`, `u` is recorded as a neighbor of `v` with weight `w`. -/
def SymmetricG (g : Graph) : Prop :=
  ∀ u adj, lookupA g u = some adj → ∀ v w, lookupA adj v = some w →
    edgeWeight? g v u = some w

/-- JS object well-formedness: the outer key list has no duplicates. -/
def KeysNodup (g : Graph) : Prop := (keys g).Nodup

/-- JS object well-formedness: each adjacency object's key list has no
duplicates. -/
def AdjNodup (g : Graph) : Prop := ∀ kv ∈ g, (keys kv.2).Nodup

/-- States reachable from a `PriorityQueue` by `enqueue` and `updatePriority`
calls, the operation sequences named by the specification. -/
inductive PQReachable : PriorityQueue → Prop
  | empty : PQReachable ⟨[]⟩
  | enqueue (q : PriorityQueue) (x : Node) (p : Dist) :
      PQReachable q → PQReachable (q.enqueue x p)
  | update (q : PriorityQueue) (x : Node) (p : Dist) :
      PQReachable q → PQReachable (q.updatePriority x p)

/-- `n` further loop iterations from a state, provided none of them returns. -/
def iterInr (graph : Graph) (startNode endNode : Node) : Nat → DState → Option DState
  | 0, st => some st
  | n + 1, st =>
    match loopIter graph startNode endNode st with
    | Sum.inl _ => none
    | Sum.inr st' => iterInr graph startNode endNode n st'

/-- Engine states visited by the run of `dijkstra graph startNode endNode`:
the initial state and every state the main loop reaches from it. -/
def ReachableState (graph : Graph) (startNode endNode : Node) (st : DState) : Prop :=
  ∃ n, iterInr graph startNode endNode n (initState graph startNode) = some st

/-- The spec's concrete scenario 1: edges A-B(1), A-C(4), B-C(2), B-D(7),
C-D(1), C-E(5), D-E(2), D-F(3), E-F(6), entered in that order. -/
def gScenario1 : Graph :=
  [("A", [("B", 1), ("C", 4)]),
   ("B", [("A", 1), ("C", 2), ("D", 7)]),
   ("C", [("A", 4), ("B", 2), ("D", 1), ("E", 5)]),
   ("D", [("B", 7), ("C", 1), ("E", 2), ("F", 3)]),
   ("E", [("C", 5), ("D", 2), ("F", 6)]),
   ("F", [("D", 3), ("E", 6)])]

/-- The spec's concrete scenario 4: a single zero-weight undirected edge
A-B(0). -/
def gZero : Graph := [("A", [("B", 0)]), ("B", [("A", 0)])]

/-- A graph whose only node is named by the empty string. -/
def gNilName : Graph := [("", [])]

/-- A symmetric graph in which the cheap A-to-B route passes through a node
named by the empty string: A-""(1), ""-B(1), A-B(5). -/
def gEmptyNode : Graph :=
  [("A", [("", 1), ("B", 5)]),
   ("", [("A", 1), ("B", 1)]),
   ("B", [("", 1), ("A", 5)])]

/-- The spec's concrete scenario 3: two components {A, B} and {C}. -/
def gDisc : Graph := [("A", [("B", 1)]), ("B", [("A", 1)]), ("C", [])]

/-- The priority order on queue entries. -/
def entryLE (a b : PQEntry) : Prop := a.priority ≤ b.priority

/-- Invariant of the initialization loop after the keys `seen` were handled. -/
structure InitInv (s : Node) (st : DState) (seen : List Node) : Prop where
  dKeys : keys st.distances = seen
  pKeys : keys st.previousNodes = seen
  dLook : ∀ v, lookupA st.distances v =
    if v ∈ seen then some (if v = s then (0 : Dist) else ⊤) else none
  pLook : ∀ v, lookupA st.previousNodes v = if v ∈ seen then some none else none
  qMap : (st.pq.elements.map PQEntry.element).Perm seen
  qSorted : st.pq.elements.Pairwise entryLE
  qPri : ∀ en ∈ st.pq.elements, lookupA st.distances en.element = some en.priority

/-- Every queued element has a binding in the distance table. -/
def MKeys (st : DState) : Prop :=
  ∀ en ∈ st.pq.elements, en.element ∈ keys st.distances

/-- The loop invariant of the engine's main loop.  `po` lists the nodes
already extracted from the frontier (in extraction order).  The fields:
table keys never change; the frontier stays sorted with pairwise-distinct
elements, holds exactly the not-yet-extracted graph keys, and every entry's
priority equals the node's current table distance; the start node keeps
distance 0 and predecessor null; every finite table distance is attained by
an actual path from the start node; a node's predecessor is null exactly when
its distance is infinite (or it is the start node), and otherwise is an
earlier-extracted non-falsy node whose recorded edge accounts exactly for the
distance; and every extracted node's distance is a lower bound on all current
frontier priorities. -/
structure LoopInv (g : Graph) (s : Node) (po : List Node) (st : DState) : Prop where
  dKeys : keys st.distances = keys g
  pKeys : keys st.previousNodes = keys g
  qSorted : st.pq.elements.Pairwise entryLE
  qNodup : (st.pq.elements.map PQEntry.element).Nodup
  poNodup : po.Nodup
  poKeys : ∀ v ∈ po, v ∈ keys g
  qElems : ∀ v, v ∈ st.pq.elements.map PQEntry.element ↔ (v ∈ keys g ∧ v ∉ po)
  qPri : ∀ en ∈ st.pq.elements, lookupA st.distances en.element = some en.priority
  dStart : s ∈ keys g →
    lookupA st.distances s = some 0 ∧ lookupA st.previousNodes s = some none
  dAttain : ∀ v (n : Nat), lookupA st.distances v = some (n : Dist) →
    ∃ pth, IsPath g s v pth ∧ pathWeight g pth = n
  predNone : ∀ v, lookupA st.distances v = some ⊤ →
    lookupA st.previousNodes v = some none
  pred : ∀ v (n : Nat), v ≠ s → lookupA st.distances v = some (n : Dist) →
    ∃ u, ∃ w : Nat, ∃ m : Nat,
      lookupA st.previousNodes v = some (some u) ∧ u ∈ po ∧ u ≠ "" ∧
      edgeWeight? g u v = some w ∧ lookupA st.distances u = some (m : Dist) ∧
      n = m + w ∧ (v ∈ po → po.indexOf u < po.indexOf v)
  procBound : ∀ u ∈ po, ∀ du, lookupA st.distances u = some du →
    ∀ en ∈ st.pq.elements, du ≤ en.priority

/-- The invariant threaded through the relaxation of `c`'s neighbors, after
`c` (with finite distance `nc`) was appended to the extraction order `po`. -/
structure RelaxInv (g : Graph) (s c : Node) (nc : Nat) (po : List Node)
    (st : DState) : Prop where
  inv : LoopInv g s po st
  hcin : c ∈ po
  hcne : c ≠ ""
  hc : lookupA st.distances c = some (nc : Dist)
  hbound : ∀ u ∈ po, ∀ du, lookupA st.distances u = some du → du ≤ (nc : Dist)

/-- The optimality invariant, valid when no graph key is the falsy empty
string (so no extraction is skipped with a finite distance): every extracted
node's recorded edges are fully relaxed (`settledTri`), and every extracted
node's distance is a lower bound on the weight of every path from the start
node (`settledMin`; together with `dAttain` this makes it the minimum). -/
structure OptInv (g : Graph) (s : Node) (po : List Node) (st : DState) : Prop where
  settledTri : ∀ u ∈ po, ∀ nu : Nat, lookupA st.distances u = some (nu : Dist) →
    ∀ adj, lookupA g u = some adj → ∀ nw ∈ adj, ∀ dv,
      lookupA st.distances nw.1 = some dv → dv ≤ ((nu + nw.2 : Nat) : Dist)
  settledMin : ∀ u ∈ po, ∀ du, lookupA st.distances u = some du →
    ∀ q, IsPath g s u q → du ≤ (pathWeight g q : Dist)

/-! ## Association-list lemmas -/

theorem keys_cons {α : Type} (kv : Node × α) (l : List (Node × α)) :
    keys (kv :: l) = kv.1 :: keys l := rfl

theorem lookupA_setA_self {α : Type} (l : List (Node × α)) (k : Node) (v : α) :
    lookupA (setA l k v) k = some v := by
  induction l with
  | nil => simp [setA, lookupA]
  | cons kv rest ih =>
    by_cases h : kv.1 = k
    · rw [setA, if_pos h, lookupA, if_pos rfl]
    · rw [setA, if_neg h, lookupA, if_neg h, ih]

theorem lookupA_setA_ne {α : Type} (l : List (Node × α)) (k k' : Node) (v : α)
    (h : k' ≠ k) : lookupA (setA l k v) k' = lookupA l k' := by
  have hkk : ¬ (k = k') := fun he => h he.symm
  induction l with
  | nil => simp [setA, lookupA, if_neg hkk]
  | cons kv rest ih =>
    by_cases hk : kv.1 = k
    · have hk' : ¬ (kv.1 = k') := by rw [hk]; exact hkk
      rw [setA, if_pos hk, lookupA, lookupA, if_neg hkk, if_neg hk']
    · rw [setA, if_neg hk, lookupA, lookupA, ih]

theorem keys_setA_of_mem {α : Type} (l : List (Node × α)) (k : Node) (v : α)
    (h : k ∈ keys l) : keys (setA l k v) = keys l := by
  induction l with
  | nil => simp [keys] at h
  | cons kv rest ih =>
    by_cases hk : kv.1 = k
    · rw [setA, if_pos hk, keys_cons, keys_cons, hk]
    · rw [keys_cons, List.mem_cons] at h
      rcases h with h | h
      · exact absurd h.symm hk
      · rw [setA, if_neg hk, keys_cons, keys_cons, ih h]

theorem mem_keys_setA {α : Type} (l : List (Node × α)) (k : Node) (v : α) :
    k ∈ keys (setA l k v) := by
  induction l with
  | nil => simp [setA, keys]
  | cons kv rest ih =>
    by_cases hk : kv.1 = k
    · rw [setA, if_pos hk, keys_cons]
      exact List.mem_cons_self _ _
    · rw [setA, if_neg hk, keys_cons]
      exact List.mem_cons_of_mem _ ih

theorem mem_keys_setA_of_mem {α : Type} (l : List (Node × α)) (k k' : Node) (v : α)
    (h : k' ∈ keys l) : k' ∈ keys (setA l k v) := by
  induction l with
  | nil => simp [keys] at h
  | cons kv rest ih =>
    rw [keys_cons, List.mem_cons] at h
    by_cases hk : kv.1 = k
    · rw [setA, if_pos hk, keys_cons]
      rcases h with h | h
      · rw [h, hk]
        exact List.mem_cons_self _ _
      · exact List.mem_cons_of_mem _ h
    · rw [setA, if_neg hk, keys_cons]
      rcases h with h | h
      · rw [h]
        exact List.mem_cons_self _ _
      · exact List.mem_cons_of_mem _ (ih h)

theorem lookupA_isSome_iff {α : Type} (l : List (Node × α)) (k : Node) :
    (lookupA l k).isSome ↔ k ∈ keys l := by
  induction l with
  | nil => simp [lookupA, keys]
  | cons kv rest ih =>
    by_cases h : kv.1 = k
    · rw [lookupA, if_pos h, keys_cons]
      simp [h]
    · rw [lookupA, if_neg h, keys_cons]
      simp only [List.mem_cons, ih]
      constructor
      · exact Or.inr
      · rintro (he | hm)
        · exact absurd he.symm h
        · exact hm

theorem lookupA_eq_none_iff {α : Type} (l : List (Node × α)) (k : Node) :
    lookupA l k = none ↔ k ∉ keys l := by
  rw [← lookupA_isSome_iff]
  cases lookupA l k <;> simp

theorem lookupA_mem {α : Type} {l : List (Node × α)} {k : Node} {v : α}
    (h : lookupA l k = some v) : (k, v) ∈ l := by
  induction l with
  | nil => simp [lookupA] at h
  | cons kv rest ih =>
    by_cases hk : kv.1 = k
    · rw [lookupA, if_pos hk] at h
      have : kv = (k, v) := by
        cases kv
        cases h
        rw [← hk]
      rw [← this]
      exact List.mem_cons_self _ _
    · rw [lookupA, if_neg hk] at h
      exact List.mem_cons_of_mem _ (ih h)

theorem mem_keys_of_lookupA {α : Type} {l : List (Node × α)} {k : Node} {v : α}
    (h : lookupA l k = some v) : k ∈ keys l := by
  rw [← lookupA_isSome_iff, h]
  rfl

theorem lookupA_of_mem_nodup {α : Type} {l : List (Node × α)} {k : Node} {v : α}
    (hN : (keys l).Nodup) (h : (k, v) ∈ l) : lookupA l k = some v := by
  induction l with
  | nil => simp at h
  | cons kv rest ih =>
    simp only [keys, List.map_cons, List.nodup_cons] at hN
    rcases List.mem_cons.mp h with h | h
    · subst h
      simp [lookupA]
    · have hk : kv.1 ≠ k := by
        intro he
        exact hN.1 (he ▸ (List.mem_map.mpr ⟨(k, v), h, rfl⟩))
      simp [lookupA, hk, ih hN.2 h]

/-! ## Sorting and priority-queue lemmas -/

theorem sortInsert_perm (e : PQEntry) (l : List PQEntry) :
    (sortInsert e l).Perm (e :: l) := by
  induction l with
  | nil => simp [sortInsert]
  | cons x xs ih =>
    by_cases h : x.priority ≤ e.priority
    · simp only [sortInsert, h, if_pos]
      exact (ih.cons x).trans (List.Perm.swap e x xs)
    · simp [sortInsert, h]

theorem foldl_sortInsert_perm (l acc : List PQEntry) :
    (l.foldl (fun a e => sortInsert e a) acc).Perm (acc ++ l) := by
  induction l generalizing acc with
  | nil => simp
  | cons x xs ih =>
    simp only [List.foldl_cons]
    refine (ih (sortInsert x acc)).trans ?_
    have h1 : (sortInsert x acc ++ xs).Perm ((x :: acc) ++ xs) :=
      (sortInsert_perm x acc).append_right xs
    refine h1.trans ?_
    simp only [List.cons_append]
    exact (List.perm_middle).symm

theorem sortEntries_perm (l : List PQEntry) : (sortEntries l).Perm l := by
  simpa [sortEntries] using foldl_sortInsert_perm l []

theorem sortInsert_pairwise {l : List PQEntry} (e : PQEntry)
    (h : l.Pairwise entryLE) : (sortInsert e l).Pairwise entryLE := by
  induction l with
  | nil => simp [sortInsert, entryLE]
  | cons x xs ih =>
    rcases List.pairwise_cons.mp h with ⟨hx, hxs⟩
    by_cases hle : x.priority ≤ e.priority
    · simp only [sortInsert, hle, if_pos]
      refine List.pairwise_cons.mpr ⟨?_, ih hxs⟩
      intro b hbmem
      have hmem : b ∈ e :: xs := (sortInsert_perm e xs).mem_iff.mp hbmem
      rcases List.mem_cons.mp hmem with hbe | hbx
      · subst hbe; exact hle
      · exact hx b hbx
    · simp only [sortInsert, hle, if_neg, not_false_iff]
      refine List.pairwise_cons.mpr ⟨?_, h⟩
      intro b hb
      rcases List.mem_cons.mp hb with hbe | hbx
      · subst hbe
        exact le_of_not_le hle
      · exact le_trans (le_of_not_le hle) (hx b hbx)

theorem sortEntries_pairwise (l : List PQEntry) :
    (sortEntries l).Pairwise entryLE := by
  suffices h : ∀ acc : List PQEntry, acc.Pairwise entryLE →
      (l.foldl (fun a e => sortInsert e a) acc).Pairwise entryLE by
    exact h [] (by simp)
  induction l with
  | nil => intro acc hacc; simpa using hacc
  | cons x xs ih =>
    intro acc hacc
    exact ih (sortInsert x acc) (sortInsert_pairwise x hacc)

theorem sortEntries_length (l : List PQEntry) :
    (sortEntries l).length = l.length :=
  (sortEntries_perm l).length_eq

theorem enqueue_perm (q : PriorityQueue) (x : Node) (p : Dist) :
    (q.enqueue x p).elements.Perm (⟨x, p⟩ :: q.elements) :=
  (sortEntries_perm _).trans (List.perm_append_singleton _ _)

theorem enqueue_sorted (q : PriorityQueue) (x : Node) (p : Dist) :
    (q.enqueue x p).elements.Pairwise entryLE :=
  sortEntries_pairwise _

theorem enqueue_length (q : PriorityQueue) (x : Node) (p : Dist) :
    (q.enqueue x p).elements.length = q.elements.length + 1 := by
  have h := (enqueue_perm q x p).length_eq
  simpa using h

theorem setFirstPriority?_eq_some {l : List PQEntry} {x : Node} {p : Dist}
    {l' : List PQEntry} (h : setFirstPriority? l x p = some l') :
    ∃ l₁ e l₂, l = l₁ ++ e :: l₂ ∧ e.element = x ∧ (∀ e' ∈ l₁, e'.element ≠ x) ∧
      l' = l₁ ++ ⟨x, p⟩ :: l₂ := by
  induction l generalizing l' with
  | nil => simp [setFirstPriority?] at h
  | cons e es ih =>
    by_cases he : e.element = x
    · rw [setFirstPriority?, if_pos he] at h
      refine ⟨[], e, es, by simp, he, by simp, ?_⟩
      rw [← Option.some_inj.mp h, he]
      rfl
    · rw [setFirstPriority?, if_neg he] at h
      cases hes : setFirstPriority? es x p with
      | none => rw [hes] at h; simp at h
      | some es' =>
        rw [hes] at h
        replace h : e :: es' = l' := by simpa using h
        obtain ⟨l₁, e₀, l₂, h1, h2, h3, h4⟩ := ih hes
        refine ⟨e :: l₁, e₀, l₂, by rw [h1]; rfl, h2, ?_, by rw [← h, h4]; rfl⟩
        intro e' he'
        rcases List.mem_cons.mp he' with he' | he'
        · rw [he']; exact he
        · exact h3 e' he'

theorem setFirstPriority?_eq_none {l : List PQEntry} {x : Node} {p : Dist}
    (h : setFirstPriority? l x p = none) : ∀ e ∈ l, e.element ≠ x := by
  induction l with
  | nil => simp
  | cons e es ih =>
    by_cases he : e.element = x
    · rw [setFirstPriority?, if_pos he] at h
      simp at h
    · rw [setFirstPriority?, if_neg he] at h
      intro e' he'
      rcases List.mem_cons.mp he' with he' | he'
      · rw [he']; exact he
      · cases hes : setFirstPriority? es x p with
        | none => exact ih hes e' he'
        | some es' => rw [hes] at h; simp at h

theorem updatePriority_length (q : PriorityQueue) (x : Node) (p : Dist) :
    (q.updatePriority x p).elements.length = q.elements.length := by
  unfold PriorityQueue.updatePriority
  cases h : setFirstPriority? q.elements x p with
  | none => rfl
  | some l =>
    obtain ⟨l₁, e, l₂, h1, _, _, h4⟩ := setFirstPriority?_eq_some h
    simp [sortEntries_length, h1, h4]

theorem updatePriority_map_perm (q : PriorityQueue) (x : Node) (p : Dist) :
    ((q.updatePriority x p).elements.map PQEntry.element).Perm
      (q.elements.map PQEntry.element) := by
  unfold PriorityQueue.updatePriority
  cases h : setFirstPriority? q.elements x p with
  | none => rfl
  | some l =>
    obtain ⟨l₁, e, l₂, h1, h2, _, h4⟩ := setFirstPriority?_eq_some h
    have hmap : l.map PQEntry.element = q.elements.map PQEntry.element := by
      rw [h1, h4]
      simp [h2]
    calc ((⟨sortEntries l⟩ : PriorityQueue).elements.map PQEntry.element).Perm
          (l.map PQEntry.element) := (sortEntries_perm l).map _
      _ = q.elements.map PQEntry.element := hmap

theorem updatePriority_sorted (q : PriorityQueue) (x : Node) (p : Dist)
    (hq : q.elements.Pairwise entryLE) :
    (q.updatePriority x p).elements.Pairwise entryLE := by
  unfold PriorityQueue.updatePriority
  cases h : setFirstPriority? q.elements x p with
  | none => exact hq
  | some l => exact sortEntries_pairwise l

theorem updatePriority_mem {q : PriorityQueue} {x : Node} {p : Dist}
    (hN : (q.elements.map PQEntry.element).Nodup) (e' : PQEntry) :
    e' ∈ (q.updatePriority x p).elements ↔
      (e' ∈ q.elements ∧ e'.element ≠ x) ∨
      (e'.element = x ∧ e'.priority = p ∧ ∃ e₀ ∈ q.elements, e₀.element = x) := by
  unfold PriorityQueue.updatePriority
  cases h : setFirstPriority? q.elements x p with
  | none =>
    have hno := setFirstPriority?_eq_none h
    constructor
    · intro hm
      exact Or.inl ⟨hm, hno e' hm⟩
    · rintro (⟨hm, _⟩ | ⟨_, _, e₀, hm₀, he₀⟩)
      · exact hm
      · exact absurd he₀ (hno e₀ hm₀)
  | some l =>
    obtain ⟨l₁, e₀, l₂, h1, h2, _, h4⟩ := setFirstPriority?_eq_some h
    have hnx : ∀ e'' ∈ l₁ ++ l₂, e''.element ≠ x := by
      rw [h1] at hN
      have hN' : (e₀.element :: (l₁.map PQEntry.element ++ l₂.map PQEntry.element)).Nodup := by
        rw [← List.nodup_middle]
        simpa using hN
      have hnm : e₀.element ∉ l₁.map PQEntry.element ++ l₂.map PQEntry.element :=
        (List.nodup_cons.mp hN').1
      intro e'' he'' hcon
      apply hnm
      rw [h2, ← hcon]
      rcases List.mem_append.mp he'' with hm | hm
      · exact List.mem_append_left _ (List.mem_map.mpr ⟨e'', hm, rfl⟩)
      · exact List.mem_append_right _ (List.mem_map.mpr ⟨e'', hm, rfl⟩)
    rw [(sortEntries_perm l).mem_iff, h4]
    constructor
    · intro hm
      rcases List.mem_append.mp hm with hm | hm
      · exact Or.inl ⟨by rw [h1]; exact List.mem_append_left _ hm,
          hnx e' (List.mem_append_left _ hm)⟩
      · rcases List.mem_cons.mp hm with hm | hm
        · refine Or.inr ⟨by rw [hm], by rw [hm], e₀, ?_, h2⟩
          rw [h1]
          exact List.mem_append_right _ (List.mem_cons_self _ _)
        · exact Or.inl ⟨by
            rw [h1]
            exact List.mem_append_right _ (List.mem_cons_of_mem _ hm),
            hnx e' (List.mem_append_right _ hm)⟩
    · rintro (⟨hm, hne⟩ | ⟨hx, hp, _⟩)
      · rw [h1] at hm
        rcases List.mem_append.mp hm with hm | hm
        · exact List.mem_append_left _ hm
        · rcases List.mem_cons.mp hm with hm | hm
          · exact absurd (by rw [hm]; exact h2) hne
          · exact List.mem_append_right _ (List.mem_cons_of_mem _ hm)
      · refine List.mem_append_right _ (List.mem_cons.mpr (Or.inl ?_))
        cases e'
        simp only at hx hp
        rw [hx, hp]

theorem updatePriority_nodup {q : PriorityQueue} (x : Node) (p : Dist)
    (hN : (q.elements.map PQEntry.element).Nodup) :
    ((q.updatePriority x p).elements.map PQEntry.element).Nodup :=
  (updatePriority_map_perm q x p).nodup_iff.mpr hN

/-! ## Length and shape of the loop -/

theorem relaxStep_pq_length (c : Node) (st : DState) (nw : Node × Nat) :
    (relaxStep c st nw).pq.elements.length = st.pq.elements.length := by
  unfold relaxStep
  cases lookupA st.distances nw.1 with
  | none => rfl
  | some dn =>
    dsimp only
    split
    · exact updatePriority_length _ _ _
    · rfl

theorem relaxAll_pq_length (c : Node) (st : DState) (adj : List (Node × Nat)) :
    (relaxAll c st adj).pq.elements.length = st.pq.elements.length := by
  induction adj generalizing st with
  | nil => rfl
  | cons nw rest ih =>
    rw [relaxAll, List.foldl_cons]
    rw [show rest.foldl (relaxStep c) (relaxStep c st nw) =
      relaxAll c (relaxStep c st nw) rest from rfl]
    rw [ih, relaxStep_pq_length]

theorem loopIter_nil (g : Graph) (s e : Node) (d : List (Node × Dist))
    (p : List (Node × Option Node)) :
    loopIter g s e ⟨d, p, ⟨[]⟩⟩ = Sum.inl none := rfl

theorem loopIter_cons (g : Graph) (s e : Node) (d : List (Node × Dist))
    (p : List (Node × Option Node)) (en : PQEntry) (rest : List PQEntry) :
    loopIter g s e ⟨d, p, ⟨en :: rest⟩⟩ =
      (if en.element = "" ∨ lookupA d en.element = some ⊤ then
        Sum.inr ⟨d, p, ⟨rest⟩⟩
      else if en.element = e then
        Sum.inl (reconstructResult s e d p)
      else
        match lookupA g en.element with
        | none => Sum.inr ⟨d, p, ⟨rest⟩⟩
        | some adj => Sum.inr (relaxAll en.element ⟨d, p, ⟨rest⟩⟩ adj)) := rfl

theorem loopIter_inr_length {g : Graph} {s e : Node} {st st' : DState}
    (h : loopIter g s e st = Sum.inr st') :
    st'.pq.elements.length + 1 = st.pq.elements.length := by
  obtain ⟨d, p, ⟨els⟩⟩ := st
  cases els with
  | nil => rw [loopIter_nil] at h; exact absurd h (by simp)
  | cons en rest =>
    rw [loopIter_cons] at h
    by_cases h1 : en.element = "" ∨ lookupA d en.element = some ⊤
    · rw [if_pos h1] at h
      cases h
      rfl
    · rw [if_neg h1] at h
      by_cases h2 : en.element = e
      · rw [if_pos h2] at h
        exact absurd h (by simp)
      · rw [if_neg h2] at h
        cases hadj : lookupA g en.element with
        | none =>
          rw [hadj] at h
          cases h
          rfl
        | some adj =>
          rw [hadj] at h
          cases h
          rw [relaxAll_pq_length]
          rfl

theorem keys_setA_of_not_mem {α : Type} (l : List (Node × α)) (k : Node) (v : α)
    (h : k ∉ keys l) : keys (setA l k v) = keys l ++ [k] := by
  induction l with
  | nil => simp [setA, keys]
  | cons kv rest ih =>
    rw [keys_cons, List.mem_cons] at h
    push_neg at h
    rw [setA, if_neg (fun he => h.1 he.symm), keys_cons, keys_cons, ih h.2]
    rfl

theorem initStep_invariant {s : Node} {st : DState} {seen : List Node}
    (h : InitInv s st seen) (kv : Node × List (Node × Nat)) (hk : kv.1 ∉ seen) :
    InitInv s (initStep s st kv) (seen ++ [kv.1]) := by
  set d : Dist := if kv.1 = s then 0 else ⊤ with hd
  have hstep : initStep s st kv =
      { distances := setA st.distances kv.1 d,
        previousNodes := setA st.previousNodes kv.1 none,
        pq := st.pq.enqueue kv.1 d } := by
    rw [initStep]
    by_cases hkv : kv.1 = s
    · rw [if_pos hkv, hd, if_pos hkv]
    · rw [if_neg hkv, hd, if_neg hkv]
  rw [hstep]
  have hkD : kv.1 ∉ keys st.distances := by rw [h.dKeys]; exact hk
  have hkP : kv.1 ∉ keys st.previousNodes := by rw [h.pKeys]; exact hk
  refine ⟨?_, ?_, ?_, ?_, ?_, ?_, ?_⟩
  · rw [keys_setA_of_not_mem _ _ _ hkD, h.dKeys]
  · rw [keys_setA_of_not_mem _ _ _ hkP, h.pKeys]
  · intro v
    by_cases hv : v = kv.1
    · subst hv
      rw [lookupA_setA_self]
      simp
    · rw [lookupA_setA_ne _ _ _ _ hv, h.dLook v]
      have : (v ∈ seen ++ [kv.1]) ↔ v ∈ seen := by simp [hv]
      rw [if_congr this rfl rfl]
  · intro v
    by_cases hv : v = kv.1
    · subst hv
      rw [lookupA_setA_self]
      simp
    · rw [lookupA_setA_ne _ _ _ _ hv, h.pLook v]
      have : (v ∈ seen ++ [kv.1]) ↔ v ∈ seen := by simp [hv]
      rw [if_congr this rfl rfl]
  · refine ((enqueue_perm st.pq kv.1 d).map PQEntry.element).trans ?_
    simp only [List.map_cons]
    exact (h.qMap.cons kv.1).trans (List.perm_append_singleton _ _).symm
  · exact enqueue_sorted _ _ _
  · intro en hen
    have hen' : en ∈ (⟨kv.1, d⟩ : PQEntry) :: st.pq.elements :=
      (enqueue_perm st.pq kv.1 d).mem_iff.mp hen
    rcases List.mem_cons.mp hen' with hen' | hen'
    · rw [hen']
      exact lookupA_setA_self _ _ _
    · have helem : en.element ∈ seen :=
        h.qMap.mem_iff.mp (List.mem_map.mpr ⟨en, hen', rfl⟩)
      have hne : en.element ≠ kv.1 := fun he => hk (he ▸ helem)
      rw [lookupA_setA_ne _ _ _ _ hne]
      exact h.qPri en hen'

theorem initState_fold (s : Node) :
    ∀ (g₂ : Graph) (st : DState) (seen : List Node),
      InitInv s st seen → (seen ++ keys g₂).Nodup →
      InitInv s (g₂.foldl (initStep s) st) (seen ++ keys g₂) := by
  intro g₂
  induction g₂ with
  | nil => intro st seen h _; simpa [keys] using h
  | cons kv g₂' ih =>
    intro st seen h hN
    have hk : kv.1 ∉ seen := by
      intro hmem
      have : ¬ (seen ++ kv.1 :: keys g₂').Nodup := by
        intro hh
        have := List.disjoint_of_nodup_append hh
        exact absurd (List.mem_cons_self _ _) (this hmem)
      exact this (by simpa [keys] using hN)
    have h1 := initStep_invariant h kv hk
    have hN1 : ((seen ++ [kv.1]) ++ keys g₂').Nodup := by
      have : seen ++ kv.1 :: keys g₂' = (seen ++ [kv.1]) ++ keys g₂' := by simp
      rw [← this]
      simpa [keys] using hN
    have := ih _ _ h1 hN1
    have harr : (seen ++ [kv.1]) ++ keys g₂' = seen ++ keys (kv :: g₂') := by
      simp [keys]
    rw [harr] at this
    simpa using this

theorem initState_invariant (g : Graph) (s : Node) (hN : KeysNodup g) :
    InitInv s (initState g s) (keys g) := by
  have base : InitInv s ⟨[], [], ⟨[]⟩⟩ [] := by
    refine ⟨rfl, rfl, ?_, ?_, by simp, by simp, by simp⟩
    · intro v; simp [lookupA]
    · intro v; simp [lookupA]
  have := initState_fold s g ⟨[], [], ⟨[]⟩⟩ [] base (by simpa using hN)
  simpa [initState] using this

theorem initStep_pq_map_perm (s : Node) (st : DState) (kv : Node × List (Node × Nat)) :
    ((initStep s st kv).pq.elements.map PQEntry.element).Perm
      (kv.1 :: st.pq.elements.map PQEntry.element) := by
  rw [initStep]
  by_cases hkv : kv.1 = s
  · rw [if_pos hkv]
    simpa using (enqueue_perm st.pq kv.1 0).map PQEntry.element
  · rw [if_neg hkv]
    simpa using (enqueue_perm st.pq kv.1 ⊤).map PQEntry.element

theorem initFold_pq_map_perm (s : Node) :
    ∀ (g₂ : Graph) (st : DState),
      ((g₂.foldl (initStep s) st).pq.elements.map PQEntry.element).Perm
        (st.pq.elements.map PQEntry.element ++ keys g₂) := by
  intro g₂
  induction g₂ with
  | nil => intro st; simp [keys]
  | cons kv g₂' ih =>
    intro st
    rw [List.foldl_cons]
    refine (ih (initStep s st kv)).trans ?_
    refine (((initStep_pq_map_perm s st kv)).append_right (keys g₂')).trans ?_
    rw [keys_cons, List.cons_append]
    exact List.perm_middle.symm

theorem initState_pq_map_perm (g : Graph) (s : Node) :
    ((initState g s).pq.elements.map PQEntry.element).Perm (keys g) := by
  simpa using initFold_pq_map_perm s g ⟨[], [], ⟨[]⟩⟩

theorem initState_pq_length (g : Graph) (s : Node) :
    (initState g s).pq.elements.length = g.length := by
  have h := (initState_pq_map_perm g s).length_eq
  simpa [keys] using h

theorem initState_mkeys (g : Graph) (s : Node) : MKeys (initState g s) := by
  suffices h : ∀ (g₂ : Graph) (st : DState), MKeys st → MKeys (g₂.foldl (initStep s) st) by
    refine h g ⟨[], [], ⟨[]⟩⟩ ?_
    intro en hen
    simp at hen
  intro g₂
  induction g₂ with
  | nil => intro st h; exact h
  | cons kv g₂' ih =>
    intro st h
    rw [List.foldl_cons]
    refine ih _ ?_
    intro en hen
    set d : Dist := if kv.1 = s then 0 else ⊤ with hd
    have hstep : initStep s st kv =
        { distances := setA st.distances kv.1 d,
          previousNodes := setA st.previousNodes kv.1 none,
          pq := st.pq.enqueue kv.1 d } := by
      rw [initStep]
      by_cases hkv : kv.1 = s
      · rw [if_pos hkv, hd, if_pos hkv]
      · rw [if_neg hkv, hd, if_neg hkv]
    rw [hstep] at hen ⊢
    have hen' : en ∈ (⟨kv.1, d⟩ : PQEntry) :: st.pq.elements :=
      (enqueue_perm st.pq kv.1 d).mem_iff.mp hen
    rcases List.mem_cons.mp hen' with hen' | hen'
    · rw [hen']
      exact mem_keys_setA _ _ _
    · exact mem_keys_setA_of_mem _ _ _ _ (h en hen')

theorem relaxStep_pq_map_perm (c : Node) (st : DState) (nw : Node × Nat) :
    (((relaxStep c st nw).pq.elements.map PQEntry.element)).Perm
      (st.pq.elements.map PQEntry.element) := by
  unfold relaxStep
  cases lookupA st.distances nw.1 with
  | none => rfl
  | some dn =>
    dsimp only
    split
    · exact updatePriority_map_perm _ _ _
    · rfl

theorem relaxStep_keys_mono (c : Node) (st : DState) (nw : Node × Nat) (v : Node)
    (h : v ∈ keys st.distances) : v ∈ keys (relaxStep c st nw).distances := by
  unfold relaxStep
  cases lookupA st.distances nw.1 with
  | none => exact h
  | some dn =>
    dsimp only
    split
    · exact mem_keys_setA_of_mem _ _ _ _ h
    · exact h

theorem relaxStep_mkeys (c : Node) (st : DState) (nw : Node × Nat) (h : MKeys st) :
    MKeys (relaxStep c st nw) := by
  intro en hen
  have hel : en.element ∈ (relaxStep c st nw).pq.elements.map PQEntry.element :=
    List.mem_map.mpr ⟨en, hen, rfl⟩
  have hel' : en.element ∈ st.pq.elements.map PQEntry.element :=
    (relaxStep_pq_map_perm c st nw).mem_iff.mp hel
  obtain ⟨en₀, hen₀, he₀⟩ := List.mem_map.mp hel'
  rw [← he₀]
  exact relaxStep_keys_mono c st nw _ (h en₀ hen₀)

theorem relaxAll_mkeys (c : Node) (adj : List (Node × Nat)) :
    ∀ (st : DState), MKeys st → MKeys (relaxAll c st adj) := by
  induction adj with
  | nil => intro st h; exact h
  | cons nw rest ih =>
    intro st h
    rw [relaxAll, List.foldl_cons]
    exact ih _ (relaxStep_mkeys c st nw h)

theorem loopIter_inr_mkeys {g : Graph} {s e : Node} {st st' : DState}
    (hit : loopIter g s e st = Sum.inr st') (h : MKeys st) : MKeys st' := by
  obtain ⟨d, p, ⟨els⟩⟩ := st
  cases els with
  | nil => rw [loopIter_nil] at hit; exact absurd hit (by simp)
  | cons en rest =>
    have htail : MKeys ⟨d, p, ⟨rest⟩⟩ := by
      intro en' hen'
      exact h en' (List.mem_cons_of_mem _ hen')
    rw [loopIter_cons] at hit
    by_cases h1 : en.element = "" ∨ lookupA d en.element = some ⊤
    · rw [if_pos h1] at hit
      cases hit
      exact htail
    · rw [if_neg h1] at hit
      by_cases h2 : en.element = e
      · rw [if_pos h2] at hit
        exact absurd hit (by simp)
      · rw [if_neg h2] at hit
        cases hadj : lookupA g en.element with
        | none =>
          rw [hadj] at hit
          cases hit
          exact htail
        | some adj =>
          rw [hadj] at hit
          cases hit
          exact relaxAll_mkeys _ _ _ htail

theorem dijkstraLoopE_isSome (g : Graph) (s e : Node) :
    ∀ (fuel : Nat) (st : DState), st.pq.elements.length ≤ fuel →
      (dijkstraLoopE g s e fuel st).isSome := by
  intro fuel
  induction fuel with
  | zero =>
    intro st h
    have : st.pq.elements = [] := List.length_eq_zero.mp (Nat.le_zero.mp h)
    simp [dijkstraLoopE, this]
  | succ n ih =>
    intro st h
    rw [dijkstraLoopE]
    by_cases hpq : st.pq.elements = []
    · simp [hpq]
    · rw [if_neg hpq]
      cases hit : loopIter g s e st with
      | inl r => simp
      | inr st' =>
        have hlen := loopIter_inr_length hit
        exact ih st' (by omega)

/-! ## Shape of the reconstruction walks -/

theorem getLast?_concat' {α : Type} (l : List α) (a : α) :
    (l ++ [a]).getLast? = some a := by
  induction l with
  | nil => rfl
  | cons x xs ih =>
    rw [List.cons_append]
    cases hxs : xs ++ [a] with
    | nil => exact absurd hxs (by simp)
    | cons y ys =>
      rw [List.getLast?_cons_cons, ← hxs, ih]

theorem getLast?_cons_of_ne_nil {α : Type} (a : α) (l : List α) (h : l ≠ []) :
    (a :: l).getLast? = l.getLast? := by
  cases l with
  | nil => exact absurd rfl h
  | cons b bs => rw [List.getLast?_cons_cons]

theorem walk1_shape (prev : List (Node × Option Node)) (s e : Node) :
    ∀ (fuel : Nat) (t : Option Node) (acc l : List Node),
      walk1 prev s e fuel t acc = some l →
      l = acc ∨ ∃ v pre, t = some v ∧ l = pre ++ v :: acc := by
  intro fuel
  induction fuel with
  | zero =>
    intro t acc l h
    rw [walk1] at h
    exact Or.inl (Option.some_inj.mp h).symm
  | succ n ih =>
    intro t acc l h
    cases t with
    | none =>
      rw [walk1] at h
      exact Or.inl (Option.some_inj.mp h).symm
    | some t0 =>
      rw [walk1] at h
      cases hpt : lookupA prev t0 with
      | none =>
        rw [hpt] at h
        exact Or.inl (Option.some_inj.mp h).symm
      | some pt =>
        rw [hpt] at h
        dsimp only at h
        by_cases h1 : t0 = s
        · rw [if_pos h1] at h
          exact Or.inr ⟨t0, [], rfl, by rw [← Option.some_inj.mp h]; rfl⟩
        · rw [if_neg h1] at h
          by_cases h2 : (pt = none ∨ pt = some "") ∧ s ≠ e
          · rw [if_pos h2] at h
            exact absurd h (by simp)
          · rw [if_neg h2] at h
            rcases ih pt (t0 :: acc) l h with h' | ⟨v, pre, hv, h'⟩
            · exact Or.inr ⟨t0, [], rfl, by rw [h']; rfl⟩
            · exact Or.inr ⟨t0, pre ++ [v], rfl, by rw [h']; simp⟩

theorem walk2_shape (prev : List (Node × Option Node)) (s : Node) :
    ∀ (fuel : Nat) (t : Option Node) (acc : List Node),
      walk2 prev s fuel t acc = acc ∨
      ∃ v pre, t = some v ∧ walk2 prev s fuel t acc = pre ++ v :: acc := by
  intro fuel
  induction fuel with
  | zero => intro t acc; exact Or.inl rfl
  | succ n ih =>
    intro t acc
    cases t with
    | none => exact Or.inl rfl
    | some t0 =>
      rw [walk2]
      by_cases h1 : t0 = s
      · rw [if_pos h1]
        exact Or.inr ⟨t0, [], rfl, rfl⟩
      · rw [if_neg h1]
        cases hpt : lookupA prev t0 with
        | none => exact Or.inr ⟨t0, [], rfl, rfl⟩
        | some pt =>
          dsimp only
          rcases ih pt (t0 :: acc) with h' | ⟨v, pre, hv, h'⟩
          · exact Or.inr ⟨t0, [], rfl, by rw [h']; rfl⟩
          · exact Or.inr ⟨t0, pre ++ [v], rfl, by rw [h']; simp⟩

/-- Whatever the interior of the reconstruction produced, the guards of
lines 49-93 force every non-null result to be a nonempty start-to-end node
sequence carrying the end node's recorded distance. -/
theorem reconstructResult_props {s e : Node} {D : List (Node × Dist)}
    {P : List (Node × Option Node)} {res : DijkstraResult} {de : Dist}
    (hD : lookupA D e = some de)
    (h : reconstructResult s e D P = some res) :
    res.path ≠ [] ∧ res.path.head? = some s ∧ res.path.getLast? = some e ∧
      res.distance = de := by
  rw [reconstructResult] at h
  cases hw : walk1 P s e (P.length + 1) (some e) [] with
  | none => rw [hw] at h; exact absurd h (by simp)
  | some path0 =>
    rw [hw] at h
    dsimp only at h
    rw [hD] at h
    set path1 : List Node :=
      if path0.head? ≠ some s ∧ s = e then s :: path0 else path0 with hpath1
    have hlast0 : path0 = [] ∨ path0.getLast? = some e := by
      rcases walk1_shape P s e (P.length + 1) (some e) [] path0 hw with h' | ⟨v, pre, hv, h'⟩
      · exact Or.inl h'
      · right
        injection hv with hv'
        rw [h', ← hv']
        exact getLast?_concat' _ _
    have hlast1 : path1.head? = some s → path1.getLast? = some e := by
      intro hh
      rcases hlast0 with h0 | h0
      · subst h0
        by_cases hse : s = e
        · rw [hpath1] at hh ⊢
          rw [if_pos (by simp [hse])] at hh ⊢
          simp [hse]
        · rw [hpath1] at hh
          rw [if_neg (by simp [hse])] at hh
          simp at hh
      · have hne : path0 ≠ [] := by
          intro hcon
          rw [hcon] at h0
          simp at h0
        rw [hpath1]
        split
        · rw [getLast?_cons_of_ne_nil s path0 hne]
          exact h0
        · exact h0
    by_cases hhead : path1.head? ≠ some s
    · rw [if_pos hhead] at h
      by_cases hfin : some de ≠ some (⊤ : Dist)
      · rw [if_pos hfin] at h
        by_cases hps : path1 = [] ∧ s = e
        · rw [if_pos hps] at h
          have hres : res = ⟨path1 ++ [s], de⟩ := (Option.some_inj.mp h).symm
          rw [hres, hps.1]
          refine ⟨by simp, by simp, by simp [hps.2], rfl⟩
        · rw [if_neg hps] at h
          rw [if_pos hhead] at h
          set rp := walk2 P s (P.length + 1) (some e) [] with hrp
          by_cases hg : rp.head? = some s ∧ some de ≠ some (⊤ : Dist)
          · rw [if_pos hg] at h
            have hres : res = ⟨rp, de⟩ := (Option.some_inj.mp h).symm
            have hrpne : rp ≠ [] := by
              intro hcon
              rw [hcon] at hg
              simp at hg
            have hrplast : rp.getLast? = some e := by
              rcases walk2_shape P s (P.length + 1) (some e) [] with h' | ⟨v, pre, hv, h'⟩
              · exact absurd (hrp.trans h') hrpne
              · injection hv with hv'
                rw [hrp, h', ← hv']
                exact getLast?_concat' _ _
            rw [hres]
            exact ⟨hrpne, hg.1, hrplast, rfl⟩
          · rw [if_neg hg] at h
            exact absurd h (by simp)
      · rw [if_neg hfin] at h
        exact absurd h (by simp)
    · rw [if_neg hhead] at h
      rw [not_not] at hhead
      have hres : res = ⟨path1, de⟩ := (Option.some_inj.mp h).symm
      rw [hres]
      refine ⟨?_, hhead, hlast1 hhead, rfl⟩
      intro hcon
      have hcon' : path1 = [] := hcon
      rw [hcon'] at hhead
      simp at hhead

/-- Lifting `reconstructResult_props` through the main loop: a non-null
function result is a nonempty start-to-end path with a finite distance. -/
theorem loopE_result_props (g : Graph) (s e : Node) :
    ∀ (fuel : Nat) (st : DState) (res : DijkstraResult), MKeys st →
      dijkstraLoopE g s e fuel st = some (some res) →
      res.path ≠ [] ∧ res.path.head? = some s ∧ res.path.getLast? = some e ∧
        res.distance ≠ ⊤ := by
  intro fuel
  induction fuel with
  | zero =>
    intro st res _ h
    rw [dijkstraLoopE] at h
    split at h
    · exact absurd (Option.some_inj.mp h) (by simp)
    · exact absurd h (by simp)
  | succ n ih =>
    intro st res hM h
    rw [dijkstraLoopE] at h
    by_cases hpq : st.pq.elements = []
    · rw [if_pos hpq] at h
      exact absurd (Option.some_inj.mp h) (by simp)
    · rw [if_neg hpq] at h
      cases hit : loopIter g s e st with
      | inr st' =>
        rw [hit] at h
        exact ih st' res (loopIter_inr_mkeys hit hM) h
      | inl r =>
        rw [hit] at h
        have hr : r = some res := Option.some_inj.mp h
        subst hr
        obtain ⟨d, p, ⟨els⟩⟩ := st
        cases els with
        | nil => exact absurd rfl hpq
        | cons en rest =>
          rw [loopIter_cons] at hit
          by_cases h1 : en.element = "" ∨ lookupA d en.element = some ⊤
          · rw [if_pos h1] at hit
            exact absurd hit (by simp)
          · rw [if_neg h1] at hit
            by_cases h2 : en.element = e
            · rw [if_pos h2] at hit
              have hrec : reconstructResult s e d p = some res := Sum.inl.inj hit
              have hkey : e ∈ keys d := by
                rw [← h2]
                exact hM en (List.mem_cons_self _ _)
              obtain ⟨de, hde⟩ := Option.isSome_iff_exists.mp
                ((lookupA_isSome_iff d e).mpr hkey)
              have hdeTop : de ≠ ⊤ := by
                intro hcon
                rw [hcon] at hde
                rw [h2] at h1
                exact h1 (Or.inr hde)
              obtain ⟨hne, hhd, hlast, hdist⟩ := reconstructResult_props hde hrec
              exact ⟨hne, hhd, hlast, by rw [hdist]; exact hdeTop⟩
            · rw [if_neg h2] at hit
              cases hadj : lookupA g en.element with
              | none =>
                rw [hadj] at hit
                exact absurd hit (by simp)
              | some adj =>
                rw [hadj] at hit
                exact absurd hit (by simp)

/-! ## Path lemmas -/

theorem pathWeight_nil (g : Graph) : pathWeight g [] = 0 := rfl

theorem pathWeight_single (g : Graph) (u : Node) : pathWeight g [u] = 0 := rfl

theorem pathWeight_cons_cons (g : Graph) (u v : Node) (rest : List Node) :
    pathWeight g (u :: v :: rest) =
      (edgeWeight? g u v).getD 0 + pathWeight g (v :: rest) := rfl

theorem isPath_source_mem_keys {g : Graph} {u t : Node} {p : List Node}
    (h : IsPath g u t p) : u ∈ keys g := by
  induction h with
  | single x hx => exact (lookupA_isSome_iff g x).mp hx
  | cons a b t' w' p' hw hp ih =>
    rw [edgeWeight?] at hw
    cases hl : lookupA g a with
    | none => rw [hl] at hw; simp at hw
    | some adj => exact (lookupA_isSome_iff g a).mp (by rw [hl]; rfl)

theorem isPath_target_mem_keys {g : Graph} {u t : Node} {p : List Node}
    (h : IsPath g u t p) : t ∈ keys g := by
  induction h with
  | single v hv => exact (lookupA_isSome_iff g v).mp hv
  | cons u v t w p hw hp ih => exact ih

theorem isPath_head {g : Graph} {u t : Node} {p : List Node}
    (h : IsPath g u t p) : p.head? = some u := by
  cases h <;> rfl

theorem isPath_ne_nil {g : Graph} {u t : Node} {p : List Node}
    (h : IsPath g u t p) : p ≠ [] := by
  intro hcon
  have := isPath_head h
  rw [hcon] at this
  exact absurd this (by simp)

theorem isPath_last {g : Graph} {u t : Node} {p : List Node}
    (h : IsPath g u t p) : p.getLast? = some t := by
  induction h with
  | single v hv => rfl
  | cons u v t w p hw hp ih =>
    rw [getLast?_cons_of_ne_nil u p (isPath_ne_nil hp)]
    exact ih

theorem isPath_append_edge {g : Graph} {s u v : Node} {p : List Node} {w : Nat}
    (h : IsPath g s u p) :
    edgeWeight? g u v = some w → v ∈ keys g → IsPath g s v (p ++ [v]) := by
  induction h with
  | single x hx =>
    intro hw hv
    exact IsPath.cons x v v w [v] hw (IsPath.single v ((lookupA_isSome_iff g v).mpr hv))
  | cons a b t w₀ p₀ h₀ hp₀ ih =>
    intro hw hv
    exact IsPath.cons a b v w₀ (p₀ ++ [v]) h₀ (ih hw hv)

theorem pathWeight_append_edge {g : Graph} {s u v : Node} {p : List Node} {w : Nat}
    (h : IsPath g s u p) :
    edgeWeight? g u v = some w → pathWeight g (p ++ [v]) = pathWeight g p + w := by
  induction h with
  | single x hx =>
    intro hw
    rw [List.singleton_append, pathWeight_cons_cons, pathWeight_single,
      pathWeight_single, hw]
    simp
  | cons a b t w₀ p₀ h₀ hp₀ ih =>
    intro hw
    cases p₀ with
    | nil => exact absurd rfl (isPath_ne_nil hp₀)
    | cons b' tl =>
      have hb : b' = b := by
        have := isPath_head hp₀
        simpa using this
      subst hb
      rw [show (a :: b' :: tl) ++ [v] = a :: b' :: (tl ++ [v]) from rfl,
        pathWeight_cons_cons, pathWeight_cons_cons,
        show b' :: (tl ++ [v]) = (b' :: tl) ++ [v] from rfl, ih hw]
      ring

/-! ## Standalone relaxation lemmas -/

theorem dist_ne_top_iff {d : Dist} : d ≠ ⊤ ↔ ∃ n : Nat, d = (n : Dist) := by
  constructor
  · intro h
    cases d with
    | none => exact absurd rfl h
    | some n => exact ⟨n, rfl⟩
  · rintro ⟨n, rfl⟩
    exact WithTop.natCast_ne_top n

theorem relaxStep_changes (c : Node) (st : DState) (nw : Node × Nat) (x : Node) :
    (lookupA (relaxStep c st nw).distances x = lookupA st.distances x ∧
      lookupA (relaxStep c st nw).previousNodes x = lookupA st.previousNodes x) ∨
    (∃ dv₀, ∃ nv : Nat, lookupA st.distances x = some dv₀ ∧
      lookupA (relaxStep c st nw).distances x = some (nv : Dist) ∧ (nv : Dist) < dv₀ ∧
      lookupA (relaxStep c st nw).previousNodes x = some (some c)) := by
  unfold relaxStep
  cases hval : lookupA st.distances nw.1 with
  | none => left; exact ⟨rfl, rfl⟩
  | some dn =>
    dsimp only
    by_cases hlt : (lookupA st.distances c).getD ⊤ + (nw.2 : Dist) < dn
    · rw [if_pos hlt]
      by_cases hx : x = nw.1
      · subst hx
        right
        obtain ⟨nv, hnv⟩ := dist_ne_top_iff.mp (ne_top_of_lt hlt)
        refine ⟨dn, nv, hval, ?_, ?_, ?_⟩
        · rw [lookupA_setA_self, hnv]
        · rw [← hnv]; exact hlt
        · rw [lookupA_setA_self]
      · left
        exact ⟨lookupA_setA_ne _ _ _ _ hx, lookupA_setA_ne _ _ _ _ hx⟩
    · rw [if_neg hlt]
      left
      exact ⟨rfl, rfl⟩

theorem relaxAll_cons (c : Node) (st : DState) (nw : Node × Nat)
    (l : List (Node × Nat)) :
    relaxAll c st (nw :: l) = relaxAll c (relaxStep c st nw) l := rfl

theorem relaxAll_changes (c : Node) (l : List (Node × Nat)) :
    ∀ (st : DState) (x : Node),
      (lookupA (relaxAll c st l).distances x = lookupA st.distances x ∧
        lookupA (relaxAll c st l).previousNodes x = lookupA st.previousNodes x) ∨
      (∃ dv₀, ∃ nv : Nat, lookupA st.distances x = some dv₀ ∧
        lookupA (relaxAll c st l).distances x = some (nv : Dist) ∧ (nv : Dist) < dv₀ ∧
        lookupA (relaxAll c st l).previousNodes x = some (some c)) := by
  induction l with
  | nil => intro st x; left; exact ⟨rfl, rfl⟩
  | cons nw l' ih =>
    intro st x
    rw [relaxAll_cons]
    rcases ih (relaxStep c st nw) x with ⟨hd, hp⟩ | ⟨dv₀, nv, h1, h2, h3, h4⟩
    · rcases relaxStep_changes c st nw x with ⟨hd', hp'⟩ | ⟨dv₀, nv, h1, h2, h3, h4⟩
      · left
        exact ⟨hd.trans hd', hp.trans hp'⟩
      · right
        exact ⟨dv₀, nv, h1, hd.trans h2, h3, hp.trans h4⟩
    · rcases relaxStep_changes c st nw x with ⟨hd', hp'⟩ | ⟨dv₁, nv₁, g1, g2, g3, g4⟩
      · right
        refine ⟨dv₀, nv, ?_, h2, h3, h4⟩
        rw [← hd']
        exact h1
      · right
        have hmid : dv₀ = (nv₁ : Dist) := by
          rw [g2] at h1
          exact Option.some_inj.mp h1.symm
        refine ⟨dv₁, nv, g1, h2, ?_, h4⟩
        rw [hmid] at h3
        exact lt_trans h3 g3

theorem relaxStep_c_stable (c : Node) (st : DState) (nw : Node × Nat) :
    lookupA (relaxStep c st nw).distances c = lookupA st.distances c := by
  unfold relaxStep
  cases hval : lookupA st.distances nw.1 with
  | none => rfl
  | some dn =>
    dsimp only
    by_cases hlt : (lookupA st.distances c).getD ⊤ + (nw.2 : Dist) < dn
    · rw [if_pos hlt]
      by_cases hx : nw.1 = c
      · subst hx
        rw [hval] at hlt
        exact absurd hlt (not_lt.mpr le_self_add)
      · exact lookupA_setA_ne _ _ _ _ (fun h => hx h.symm)
    · rw [if_neg hlt]

theorem relaxAll_c_stable (c : Node) (l : List (Node × Nat)) :
    ∀ (st : DState),
      lookupA (relaxAll c st l).distances c = lookupA st.distances c := by
  induction l with
  | nil => intro st; rfl
  | cons nw l' ih =>
    intro st
    rw [relaxAll_cons, ih, relaxStep_c_stable]

theorem relaxStep_dKeys (c : Node) (st : DState) (nw : Node × Nat) :
    keys (relaxStep c st nw).distances = keys st.distances := by
  unfold relaxStep
  cases hval : lookupA st.distances nw.1 with
  | none => rfl
  | some dn =>
    dsimp only
    split
    · exact keys_setA_of_mem _ _ _ (mem_keys_of_lookupA hval)
    · rfl

theorem relaxStep_tri (c : Node) (st : DState) (nw : Node × Nat) :
    ∀ dv, lookupA (relaxStep c st nw).distances nw.1 = some dv →
      dv ≤ (lookupA st.distances c).getD ⊤ + (nw.2 : Dist) := by
  unfold relaxStep
  cases hval : lookupA st.distances nw.1 with
  | none =>
    intro dv hdv
    rw [hval] at hdv
    simp at hdv
  | some dn =>
    dsimp only
    by_cases hlt : (lookupA st.distances c).getD ⊤ + (nw.2 : Dist) < dn
    · rw [if_pos hlt]
      intro dv hdv
      rw [lookupA_setA_self] at hdv
      rw [← Option.some_inj.mp hdv]
    · rw [if_neg hlt]
      intro dv hdv
      rw [hval] at hdv
      rw [← Option.some_inj.mp hdv]
      exact le_of_not_lt hlt

theorem relaxAll_tri (c : Node) (l : List (Node × Nat)) :
    ∀ (st : DState), ∀ nw ∈ l, ∀ dv,
      lookupA (relaxAll c st l).distances nw.1 = some dv →
      dv ≤ (lookupA st.distances c).getD ⊤ + (nw.2 : Dist) := by
  induction l with
  | nil => intro st nw h; simp at h
  | cons nw₀ l' ih =>
    intro st nw hmem dv hdv
    rw [relaxAll_cons] at hdv
    have hcstable := relaxStep_c_stable c st nw₀
    rcases List.mem_cons.mp hmem with he | he
    · subst he
      rcases relaxAll_changes c l' (relaxStep c st nw) nw.1 with
        ⟨hd, _⟩ | ⟨dv₀, nv, h1, h2, h3, _⟩
      · rw [hd] at hdv
        exact relaxStep_tri c st nw dv hdv
      · have hstep := relaxStep_tri c st nw dv₀ h1
        rw [h2] at hdv
        rw [← Option.some_inj.mp hdv]
        exact le_trans (le_of_lt h3) hstep
    · have := ih (relaxStep c st nw₀) nw he dv hdv
      rwa [hcstable] at this

/-! ## The loop invariant: initialization and extraction -/

theorem initState_loopInv (g : Graph) (s : Node) (hN : KeysNodup g) :
    LoopInv g s [] (initState g s) := by
  have h := initState_invariant g s hN
  refine ⟨h.dKeys, h.pKeys, h.qSorted, h.qMap.nodup_iff.mpr hN, by simp, by simp,
    ?_, h.qPri, ?_, ?_, ?_, ?_, by simp⟩
  · intro v
    rw [h.qMap.mem_iff]
    simp
  · intro hs
    constructor
    · have hl := h.dLook s
      rw [if_pos hs, if_pos rfl] at hl
      exact hl
    · have hl := h.pLook s
      rw [if_pos hs] at hl
      exact hl
  · intro v n hv
    have hl := h.dLook v
    rw [hv] at hl
    by_cases hk : v ∈ keys g
    · rw [if_pos hk] at hl
      by_cases hvs : v = s
      · subst hvs
        rw [if_pos rfl] at hl
        have hn0 : n = 0 := Nat.cast_eq_zero.mp (Option.some_inj.mp hl)
        refine ⟨[v], IsPath.single v ((lookupA_isSome_iff g v).mpr hk), ?_⟩
        rw [pathWeight_single, hn0]
      · rw [if_neg hvs] at hl
        exact absurd (Option.some_inj.mp hl) (WithTop.natCast_ne_top n)
    · rw [if_neg hk] at hl
      exact absurd hl (by simp)
  · intro v hv
    have hk : v ∈ keys g := by
      rw [← h.dKeys]
      exact mem_keys_of_lookupA hv
    have hl := h.pLook v
    rw [if_pos hk] at hl
    exact hl
  · intro v n hvs hv
    have hl := h.dLook v
    rw [hv] at hl
    by_cases hk : v ∈ keys g
    · rw [if_pos hk, if_neg hvs] at hl
      exact absurd (Option.some_inj.mp hl) (WithTop.natCast_ne_top n)
    · rw [if_neg hk] at hl
      exact absurd hl (by simp)

theorem pop_loopInv {g : Graph} {s : Node} {po : List Node}
    {d : List (Node × Dist)} {p : List (Node × Option Node)} {en : PQEntry}
    {rest : List PQEntry}
    (h : LoopInv g s po ⟨d, p, ⟨en :: rest⟩⟩) :
    LoopInv g s (po ++ [en.element]) ⟨d, p, ⟨rest⟩⟩ ∧
      en.element ∈ keys g ∧ en.element ∉ po := by
  have hcmem : en.element ∈ (en :: rest).map PQEntry.element :=
    List.mem_map.mpr ⟨en, List.mem_cons_self _ _, rfl⟩
  obtain ⟨hck, hcpo⟩ := (h.qElems en.element).mp hcmem
  have hcnotrest : en.element ∉ rest.map PQEntry.element := by
    have hmap : ((en :: rest).map PQEntry.element) = en.element :: rest.map PQEntry.element :=
      rfl
    have := h.qNodup
    rw [hmap, List.nodup_cons] at this
    exact this.1
  have hponod : (po ++ [en.element]).Nodup := by
    rw [show po ++ [en.element] = po ++ en.element :: [] from rfl, List.nodup_middle]
    simp [hcpo, h.poNodup]
  refine ⟨⟨h.dKeys, h.pKeys, (List.pairwise_cons.mp h.qSorted).2, ?_, hponod, ?_, ?_,
    ?_, h.dStart, h.dAttain, h.predNone, ?_, ?_⟩, hck, hcpo⟩
  · have := h.qNodup
    rw [show ((en :: rest).map PQEntry.element) = en.element :: rest.map PQEntry.element
      from rfl, List.nodup_cons] at this
    exact this.2
  · intro v hv
    rcases List.mem_append.mp hv with hv | hv
    · exact h.poKeys v hv
    · rw [List.mem_singleton.mp hv]
      exact hck
  · intro v
    constructor
    · intro hv
      have hv' : v ∈ (en :: rest).map PQEntry.element := by
        rw [show ((en :: rest).map PQEntry.element) =
          en.element :: rest.map PQEntry.element from rfl]
        exact List.mem_cons_of_mem _ hv
      obtain ⟨hk, hp⟩ := (h.qElems v).mp hv'
      refine ⟨hk, ?_⟩
      intro hcon
      rcases List.mem_append.mp hcon with hcon | hcon
      · exact hp hcon
      · rw [List.mem_singleton.mp hcon] at hv
        exact hcnotrest hv
    · rintro ⟨hk, hp⟩
      have hp' : v ∉ po := fun hc => hp (List.mem_append_left _ hc)
      have hv' : v ∈ (en :: rest).map PQEntry.element := (h.qElems v).mpr ⟨hk, hp'⟩
      rw [show ((en :: rest).map PQEntry.element) =
        en.element :: rest.map PQEntry.element from rfl, List.mem_cons] at hv'
      rcases hv' with hv' | hv'
      · exact absurd (by rw [hv']; exact List.mem_append_right _ (List.mem_singleton_self _))
          hp
      · exact hv'
  · intro en' hen'
    exact h.qPri en' (List.mem_cons_of_mem _ hen')
  · intro v n hvs hv
    obtain ⟨u, w, m, h1, h2, h3, h4, h5, h6, h7⟩ := h.pred v n hvs hv
    refine ⟨u, w, m, h1, List.mem_append_left _ h2, h3, h4, h5, h6, ?_⟩
    intro hvpo
    rcases List.mem_append.mp hvpo with hvpo | hvpo
    · rw [List.indexOf_append_of_mem h2, List.indexOf_append_of_mem hvpo]
      exact h7 hvpo
    · rw [List.mem_singleton.mp hvpo]
      rw [List.indexOf_append_of_mem h2, List.indexOf_append_of_not_mem hcpo]
      calc List.indexOf u po < po.length := List.indexOf_lt_length.mpr h2
        _ ≤ po.length + List.indexOf en.element [en.element] := Nat.le_add_right _ _
  · intro u hu du hdu e' he'
    rcases List.mem_append.mp hu with hu | hu
    · exact h.procBound u hu du hdu e' (List.mem_cons_of_mem _ he')
    · rw [List.mem_singleton.mp hu] at hdu
      have hq := h.qPri en (List.mem_cons_self _ _)
      rw [hdu] at hq
      have hdup : du = en.priority := Option.some_inj.mp hq
      rw [hdup]
      exact (List.pairwise_cons.mp h.qSorted).1 e' he'

theorem pop_relaxInv {g : Graph} {s : Node} {po : List Node}
    {d : List (Node × Dist)} {p : List (Node × Option Node)} {en : PQEntry}
    {rest : List PQEntry} {nc : Nat}
    (h : LoopInv g s po ⟨d, p, ⟨en :: rest⟩⟩) (hne : en.element ≠ "")
    (hnc : lookupA d en.element = some (nc : Dist)) :
    RelaxInv g s en.element nc (po ++ [en.element]) ⟨d, p, ⟨rest⟩⟩ := by
  obtain ⟨hinv, hck, hcpo⟩ := pop_loopInv h
  have hpri : en.priority = (nc : Dist) := by
    have hq := h.qPri en (List.mem_cons_self _ _)
    rw [hnc] at hq
    exact (Option.some_inj.mp hq).symm
  refine ⟨hinv, List.mem_append_right _ (List.mem_singleton_self _), hne, hnc, ?_⟩
  intro u hu du hdu
  rcases List.mem_append.mp hu with hu | hu
  · have := h.procBound u hu du hdu en (List.mem_cons_self _ _)
    rwa [hpri] at this
  · rw [List.mem_singleton.mp hu] at hdu
    rw [hnc] at hdu
    rw [Option.some_inj.mp hdu.symm]

theorem relaxStep_eq_none {c : Node} {st : DState} {nw : Node × Nat}
    (h : lookupA st.distances nw.1 = none) : relaxStep c st nw = st := by
  unfold relaxStep
  rw [h]

theorem relaxStep_eq_noupd {c : Node} {st : DState} {nw : Node × Nat} {dn : Dist}
    (h : lookupA st.distances nw.1 = some dn)
    (hlt : ¬((lookupA st.distances c).getD ⊤ + (nw.2 : Dist) < dn)) :
    relaxStep c st nw = st := by
  unfold relaxStep
  rw [h]
  dsimp only
  rw [if_neg hlt]

theorem relaxStep_eq_upd {c : Node} {st : DState} {nw : Node × Nat} {dn : Dist}
    (h : lookupA st.distances nw.1 = some dn)
    (hlt : (lookupA st.distances c).getD ⊤ + (nw.2 : Dist) < dn) :
    relaxStep c st nw =
      { distances := setA st.distances nw.1
          ((lookupA st.distances c).getD ⊤ + (nw.2 : Dist)),
        previousNodes := setA st.previousNodes nw.1 (some c),
        pq := st.pq.updatePriority nw.1
          ((lookupA st.distances c).getD ⊤ + (nw.2 : Dist)) } := by
  unfold relaxStep
  rw [h]
  dsimp only
  rw [if_pos hlt]

theorem relaxStep_relaxInv {g : Graph} {s c : Node} {nc : Nat} {po : List Node}
    {st : DState} (hR : RelaxInv g s c nc po st) {nw : Node × Nat}
    (hedge : edgeWeight? g c nw.1 = some nw.2) :
    RelaxInv g s c nc po (relaxStep c st nw) := by
  rcases hval : lookupA st.distances nw.1 with _ | dn
  · rw [relaxStep_eq_none hval]
    exact hR
  by_cases hlt : (lookupA st.distances c).getD ⊤ + (nw.2 : Dist) < dn
  case neg =>
    rw [relaxStep_eq_noupd hval hlt]
    exact hR
  case pos =>
  rw [relaxStep_eq_upd hval hlt]
  have hcand : (lookupA st.distances c).getD ⊤ + (nw.2 : Dist) =
      ((nc + nw.2 : Nat) : Dist) := by
    rw [hR.hc]
    push_cast
    rfl
  have hvk : nw.1 ∈ keys g := by
    rw [← hR.inv.dKeys]
    exact mem_keys_of_lookupA hval
  have hvkD : nw.1 ∈ keys st.distances := mem_keys_of_lookupA hval
  have hvkP : nw.1 ∈ keys st.previousNodes := by
    rw [hR.inv.pKeys]
    exact hvk
  have hncle : (nc : Dist) ≤ (lookupA st.distances c).getD ⊤ + (nw.2 : Dist) := by
    rw [hcand]
    exact Nat.cast_le.mpr (Nat.le_add_right _ _)
  have hvnpo : nw.1 ∉ po := by
    intro hvpo
    have hle := hR.hbound nw.1 hvpo dn hval
    exact absurd (lt_of_lt_of_le hlt (le_trans hle hncle)) (lt_irrefl _)
  have hvs : nw.1 ≠ s := by
    intro hvseq
    have hs0 : lookupA st.distances s = some 0 :=
      ((hR.inv.dStart) (hvseq ▸ hvk)).1
    rw [hvseq, hs0] at hval
    have hdn0 : dn = 0 := (Option.some_inj.mp hval).symm
    rw [hdn0] at hlt
    exact absurd hlt (not_lt.mpr (zero_le _))
  have hcv : c ≠ nw.1 := by
    intro hceq
    rw [← hceq] at hval
    rw [hR.hc] at hval
    have : dn = (nc : Dist) := (Option.some_inj.mp hval).symm
    rw [this] at hlt
    exact absurd (lt_of_lt_of_le hlt hncle) (lt_irrefl _)
  have hvc : nw.1 ≠ c := fun h => hcv h.symm
  refine ⟨⟨?_, ?_, ?_, ?_, hR.inv.poNodup, hR.inv.poKeys, ?_, ?_, ?_, ?_, ?_, ?_, ?_⟩,
    hR.hcin, hR.hcne, ?_, ?_⟩
  · show keys (setA st.distances nw.1
        ((lookupA st.distances c).getD ⊤ + (nw.2 : Dist))) = keys g
    rw [keys_setA_of_mem _ _ _ hvkD]
    exact hR.inv.dKeys
  · show keys (setA st.previousNodes nw.1 (some c)) = keys g
    rw [keys_setA_of_mem _ _ _ hvkP]
    exact hR.inv.pKeys
  · exact updatePriority_sorted _ _ _ hR.inv.qSorted
  · exact updatePriority_nodup _ _ hR.inv.qNodup
  · intro x
    rw [(updatePriority_map_perm st.pq nw.1 _).mem_iff]
    exact hR.inv.qElems x
  · intro e' he'
    rcases (updatePriority_mem hR.inv.qNodup e').mp he' with ⟨hq, hne⟩ | ⟨hel, hprio, _⟩
    · rw [lookupA_setA_ne _ _ _ _ hne]
      exact hR.inv.qPri e' hq
    · rw [hel, lookupA_setA_self, hprio]
  · intro hs
    obtain ⟨h1, h2⟩ := hR.inv.dStart hs
    constructor
    · rw [lookupA_setA_ne _ _ _ _ (fun h => hvs h.symm)]
      exact h1
    · rw [lookupA_setA_ne _ _ _ _ (fun h => hvs h.symm)]
      exact h2
  · intro x n hx
    by_cases hxv : x = nw.1
    · subst hxv
      rw [lookupA_setA_self, hcand] at hx
      have hn : n = nc + nw.2 := (Nat.cast_inj.mp (Option.some_inj.mp hx)).symm
      obtain ⟨pth, hpth, hwt⟩ := hR.inv.dAttain c nc hR.hc
      refine ⟨pth ++ [nw.1], isPath_append_edge hpth hedge hvk, ?_⟩
      rw [pathWeight_append_edge hpth hedge, hwt, hn]
    · rw [lookupA_setA_ne _ _ _ _ hxv] at hx
      exact hR.inv.dAttain x n hx
  · intro x hx
    by_cases hxv : x = nw.1
    · subst hxv
      rw [lookupA_setA_self, hcand] at hx
      exact absurd (Option.some_inj.mp hx) (WithTop.natCast_ne_top _)
    · rw [lookupA_setA_ne _ _ _ _ hxv] at hx
      rw [lookupA_setA_ne _ _ _ _ hxv]
      exact hR.inv.predNone x hx
  · intro x n hxs hx
    by_cases hxv : x = nw.1
    · subst hxv
      rw [lookupA_setA_self, hcand] at hx
      have hn : n = nc + nw.2 := (Nat.cast_inj.mp (Option.some_inj.mp hx)).symm
      refine ⟨c, nw.2, nc, ?_, hR.hcin, hR.hcne, hedge, ?_, hn, ?_⟩
      · rw [lookupA_setA_self]
      · rw [lookupA_setA_ne _ _ _ _ hcv]
        exact hR.hc
      · intro hxpo
        exact absurd hxpo hvnpo
    · rw [lookupA_setA_ne _ _ _ _ hxv] at hx
      obtain ⟨u, w', m, h1, h2, h3, h4, h5, h6, h7⟩ := hR.inv.pred x n hxs hx
      have hunv : u ≠ nw.1 := by
        intro hcon
        rw [hcon] at h2
        exact hvnpo h2
      refine ⟨u, w', m, ?_, h2, h3, h4, ?_, h6, h7⟩
      · rw [lookupA_setA_ne _ _ _ _ hxv]
        exact h1
      · rw [lookupA_setA_ne _ _ _ _ hunv]
        exact h5
  · intro u hu du hdu e' he'
    have hunv : u ≠ nw.1 := by
      intro hcon
      rw [hcon] at hu
      exact hvnpo hu
    rw [lookupA_setA_ne _ _ _ _ hunv] at hdu
    rcases (updatePriority_mem hR.inv.qNodup e').mp he' with ⟨hq, _⟩ | ⟨_, hprio, _⟩
    · exact hR.inv.procBound u hu du hdu e' hq
    · rw [hprio]
      exact le_trans (hR.hbound u hu du hdu) hncle
  · show lookupA (setA st.distances nw.1
        ((lookupA st.distances c).getD ⊤ + (nw.2 : Dist))) c = some (nc : Dist)
    rw [lookupA_setA_ne _ _ _ _ hcv]
    exact hR.hc
  · intro u hu du hdu
    have hunv : u ≠ nw.1 := by
      intro hcon
      rw [hcon] at hu
      exact hvnpo hu
    replace hdu : lookupA (setA st.distances nw.1
        ((lookupA st.distances c).getD ⊤ + (nw.2 : Dist))) u = some du := hdu
    rw [lookupA_setA_ne _ _ _ _ hunv] at hdu
    exact hR.hbound u hu du hdu

theorem relaxAll_relaxInv {g : Graph} {s c : Node} {nc : Nat} {po : List Node}
    (l : List (Node × Nat)) :
    ∀ (st : DState), RelaxInv g s c nc po st →
      (∀ nw ∈ l, edgeWeight? g c nw.1 = some nw.2) →
      RelaxInv g s c nc po (relaxAll c st l) := by
  induction l with
  | nil => intro st h _; exact h
  | cons nw l' ih =>
    intro st h hl
    rw [relaxAll_cons]
    exact ih _ (relaxStep_relaxInv h (hl nw (List.mem_cons_self _ _)))
      (fun nw' hnw' => hl nw' (List.mem_cons_of_mem _ hnw'))

theorem loopIter_inr_cases {g : Graph} {s e : Node} {d : List (Node × Dist)}
    {p : List (Node × Option Node)} {els : List PQEntry} {st' : DState}
    (hit : loopIter g s e ⟨d, p, ⟨els⟩⟩ = Sum.inr st') :
    ∃ en rest, els = en :: rest ∧
      ((st' = ⟨d, p, ⟨rest⟩⟩ ∧
          (en.element = "" ∨ lookupA d en.element = some ⊤)) ∨
        (¬(en.element = "" ∨ lookupA d en.element = some ⊤) ∧ en.element ≠ e ∧
          ((lookupA g en.element = none ∧ st' = ⟨d, p, ⟨rest⟩⟩) ∨
            (∃ adj, lookupA g en.element = some adj ∧
              st' = relaxAll en.element ⟨d, p, ⟨rest⟩⟩ adj)))) := by
  cases els with
  | nil => rw [loopIter_nil] at hit; exact absurd hit (by simp)
  | cons en rest =>
    rw [loopIter_cons] at hit
    refine ⟨en, rest, rfl, ?_⟩
    by_cases h1 : en.element = "" ∨ lookupA d en.element = some ⊤
    · rw [if_pos h1] at hit
      exact Or.inl ⟨(Sum.inr.inj hit).symm, h1⟩
    · rw [if_neg h1] at hit
      by_cases h2 : en.element = e
      · rw [if_pos h2] at hit
        exact absurd hit (by simp)
      · rw [if_neg h2] at hit
        refine Or.inr ⟨h1, h2, ?_⟩
        cases hadj : lookupA g en.element with
        | none =>
          rw [hadj] at hit
          exact Or.inl ⟨rfl, (Sum.inr.inj hit).symm⟩
        | some adj =>
          rw [hadj] at hit
          exact Or.inr ⟨adj, rfl, (Sum.inr.inj hit).symm⟩

theorem loopIter_inr_loopInv {g : Graph} {s e : Node} {po : List Node}
    {st st' : DState} (hA : AdjNodup g) (h : LoopInv g s po st)
    (hit : loopIter g s e st = Sum.inr st') :
    ∃ c, c ∉ po ∧ LoopInv g s (po ++ [c]) st' := by
  obtain ⟨d, p, ⟨els⟩⟩ := st
  obtain ⟨en, rest, hels, hcase⟩ := loopIter_inr_cases hit
  subst hels
  obtain ⟨hpop, hck, hcpo⟩ := pop_loopInv h
  rcases hcase with ⟨hst', _⟩ | ⟨h1, _, hcase⟩
  · rw [hst']
    exact ⟨en.element, hcpo, hpop⟩
  · push_neg at h1
    rcases hcase with ⟨_, hst'⟩ | ⟨adj, hadj, hst'⟩
    · rw [hst']
      exact ⟨en.element, hcpo, hpop⟩
    · have hkD : en.element ∈ keys d := by
        have := h.dKeys
        rw [show (⟨d, p, ⟨en :: rest⟩⟩ : DState).distances = d from rfl] at this
        rw [this]
        exact hck
      obtain ⟨dv, hdv⟩ := Option.isSome_iff_exists.mp ((lookupA_isSome_iff d _).mpr hkD)
      have hdvne : dv ≠ ⊤ := by
        intro hcon
        rw [hcon] at hdv
        exact h1.2 hdv
      obtain ⟨nc, hnc⟩ := dist_ne_top_iff.mp hdvne
      rw [hnc] at hdv
      have hrel := pop_relaxInv h h1.1 hdv
      have hedges : ∀ nw ∈ adj, edgeWeight? g en.element nw.1 = some nw.2 := by
        intro nw hnw
        rw [edgeWeight?, hadj]
        have hnodup : (keys adj).Nodup := hA (en.element, adj) (lookupA_mem hadj)
        have hmem : (nw.1, nw.2) ∈ adj := by
          rw [Prod.mk.eta]
          exact hnw
        exact lookupA_of_mem_nodup hnodup hmem
      rw [hst']
      exact ⟨en.element, hcpo, (relaxAll_relaxInv adj _ hrel hedges).inv⟩

theorem reachable_loopInv {g : Graph} {s e : Node} (hN : KeysNodup g)
    (hA : AdjNodup g) {st : DState} (hr : ReachableState g s e st) :
    ∃ po, LoopInv g s po st := by
  obtain ⟨n, hn⟩ := hr
  suffices h : ∀ (m : Nat) (st₀ st₁ : DState) (po₀ : List Node),
      LoopInv g s po₀ st₀ → iterInr g s e m st₀ = some st₁ →
      ∃ po, LoopInv g s po st₁ by
    exact h n _ _ [] (initState_loopInv g s hN) hn
  intro m
  induction m with
  | zero =>
    intro st₀ st₁ po₀ h0 hiter
    rw [iterInr] at hiter
    rw [← Option.some_inj.mp hiter]
    exact ⟨po₀, h0⟩
  | succ k ih =>
    intro st₀ st₁ po₀ h0 hiter
    rw [iterInr] at hiter
    cases hit : loopIter g s e st₀ with
    | inl r =>
      rw [hit] at hiter
      exact absurd hiter (by simp)
    | inr st₂ =>
      rw [hit] at hiter
      obtain ⟨c, _, hc⟩ := loopIter_inr_loopInv hA h0 hit
      exact ih _ _ _ hc hiter

/-! ## The optimality invariant -/

theorem adj_edges {g : Graph} {c : Node} {adj : List (Node × Nat)} (hA : AdjNodup g)
    (hadj : lookupA g c = some adj) :
    ∀ nw ∈ adj, edgeWeight? g c nw.1 = some nw.2 := by
  intro nw hnw
  rw [edgeWeight?, hadj]
  have hnodup : (keys adj).Nodup := hA (c, adj) (lookupA_mem hadj)
  have hmem : (nw.1, nw.2) ∈ adj := by
    rw [Prod.mk.eta]
    exact hnw
  exact lookupA_of_mem_nodup hnodup hmem

theorem coverAux {g : Graph} {s : Node} {po : List Node} {st : DState}
    (hL : LoopInv g s po st) (hO : OptInv g s po st) :
    ∀ (q : List Node) (a t : Node), IsPath g a t q → t ∉ po → a ∈ po →
      ∀ (W₀ : Nat) (da : Dist), lookupA st.distances a = some da →
        da ≤ (W₀ : Dist) →
        ∃ v dv, v ∈ keys g ∧ v ∉ po ∧ lookupA st.distances v = some dv ∧
          dv ≤ ((W₀ + pathWeight g q : Nat) : Dist) := by
  intro q a t hq
  induction hq with
  | single x hx =>
    intro ht ha W₀ da hda hle
    exact absurd ha ht
  | cons a b t w q' hw hq' ih =>
    intro ht ha W₀ da hda hle
    have hdane : da ≠ ⊤ := by
      intro hcon
      rw [hcon] at hle
      exact (WithTop.natCast_ne_top W₀) (top_le_iff.mp hle)
    obtain ⟨na, hna⟩ := dist_ne_top_iff.mp hdane
    have hnaW : na ≤ W₀ := Nat.cast_le.mp (by rw [← hna]; exact hle)
    obtain ⟨adj, hadj, hbw⟩ : ∃ adj, lookupA g a = some adj ∧ lookupA adj b = some w := by
      rw [edgeWeight?] at hw
      cases hga : lookupA g a with
      | none => rw [hga] at hw; simp at hw
      | some adj => rw [hga] at hw; exact ⟨adj, rfl, hw⟩
    have hbk : b ∈ keys g := isPath_source_mem_keys hq'
    have hbkD : b ∈ keys st.distances := by
      rw [hL.dKeys]
      exact hbk
    obtain ⟨db, hdb⟩ := Option.isSome_iff_exists.mp ((lookupA_isSome_iff _ _).mpr hbkD)
    have htri := hO.settledTri a ha na (by rw [← hna]; exact hda) adj hadj (b, w)
      (lookupA_mem hbw) db hdb
    have hdbW : db ≤ ((W₀ + w : Nat) : Dist) :=
      le_trans htri (Nat.cast_le.mpr (by omega))
    have hwq : pathWeight g (a :: q') = w + pathWeight g q' := by
      cases q' with
      | nil => exact absurd rfl (isPath_ne_nil hq')
      | cons b' tl =>
        have hb : b' = b := by simpa using isPath_head hq'
        subst hb
        rw [pathWeight_cons_cons, hw]
        rfl
    by_cases hbpo : b ∈ po
    · obtain ⟨v, dv, h1, h2, h3, h4⟩ := ih ht hbpo (W₀ + w) db hdb hdbW
      refine ⟨v, dv, h1, h2, h3, le_trans h4 (Nat.cast_le.mpr ?_)⟩
      rw [hwq]
      omega
    · refine ⟨b, db, hbk, hbpo, hdb, le_trans hdbW (Nat.cast_le.mpr ?_)⟩
      rw [hwq]
      omega

theorem cover {g : Graph} {s : Node} {po : List Node} {st : DState}
    (hL : LoopInv g s po st) (hO : OptInv g s po st) {t : Node} (ht : t ∉ po)
    {q : List Node} (hq : IsPath g s t q) :
    ∃ v dv, v ∈ keys g ∧ v ∉ po ∧ lookupA st.distances v = some dv ∧
      dv ≤ (pathWeight g q : Dist) := by
  have hsk : s ∈ keys g := isPath_source_mem_keys hq
  obtain ⟨h0, _⟩ := hL.dStart hsk
  by_cases hs : s ∈ po
  · obtain ⟨v, dv, h1, h2, h3, h4⟩ := coverAux hL hO q s t hq ht hs 0 0 h0 (by simp)
    exact ⟨v, dv, h1, h2, h3, le_trans h4 (Nat.cast_le.mpr (by omega))⟩
  · exact ⟨s, 0, hsk, hs, h0, zero_le _⟩

theorem head_min_le_paths {g : Graph} {s : Node} {po : List Node}
    {d : List (Node × Dist)} {p : List (Node × Option Node)} {en : PQEntry}
    {rest : List PQEntry} (hL : LoopInv g s po ⟨d, p, ⟨en :: rest⟩⟩)
    (hO : OptInv g s po ⟨d, p, ⟨en :: rest⟩⟩) {q : List Node}
    (hq : IsPath g s en.element q) :
    en.priority ≤ (pathWeight g q : Dist) := by
  have hcpo : en.element ∉ po := (pop_loopInv hL).2.2
  obtain ⟨v, dv, h1, h2, h3, h4⟩ := cover hL hO hcpo hq
  have hvmem : v ∈ (en :: rest).map PQEntry.element := (hL.qElems v).mpr ⟨h1, h2⟩
  obtain ⟨en', hen', hel⟩ := List.mem_map.mp hvmem
  have hq' : lookupA d en'.element = some en'.priority := hL.qPri en' hen'
  rw [hel] at hq'
  have h3' : lookupA d v = some dv := h3
  rw [h3'] at hq'
  have hdv : en'.priority = dv := (Option.some_inj.mp hq').symm
  have hle : en.priority ≤ en'.priority := by
    rcases List.mem_cons.mp hen' with he | he
    · rw [he]
    · exact (List.pairwise_cons.mp hL.qSorted).1 en' he
  rw [hdv] at hle
  exact le_trans hle h4

theorem initState_optInv (g : Graph) (s : Node) : OptInv g s [] (initState g s) := by
  constructor
  · intro u hu
    simp at hu
  · intro u hu
    simp at hu

theorem relaxStep_po_stable {g : Graph} {s c : Node} {nc : Nat} {po : List Node}
    {st : DState} (hR : RelaxInv g s c nc po st) {nw : Node × Nat} :
    ∀ u ∈ po, lookupA (relaxStep c st nw).distances u = lookupA st.distances u ∧
      lookupA (relaxStep c st nw).previousNodes u = lookupA st.previousNodes u := by
  intro u hu
  rcases hval : lookupA st.distances nw.1 with _ | dn
  · rw [relaxStep_eq_none hval]
    exact ⟨rfl, rfl⟩
  by_cases hlt : (lookupA st.distances c).getD ⊤ + (nw.2 : Dist) < dn
  · rw [relaxStep_eq_upd hval hlt]
    have hncle : (nc : Dist) ≤ (lookupA st.distances c).getD ⊤ + (nw.2 : Dist) := by
      rw [hR.hc]
      rw [show ((some (nc : Dist)).getD ⊤ : Dist) = (nc : Dist) from rfl]
      exact le_self_add
    have hvnpo : nw.1 ∉ po := by
      intro hvpo
      have hle := hR.hbound nw.1 hvpo dn hval
      exact absurd (lt_of_lt_of_le hlt (le_trans hle hncle)) (lt_irrefl _)
    have hune : u ≠ nw.1 := by
      intro hcon
      rw [hcon] at hu
      exact hvnpo hu
    exact ⟨lookupA_setA_ne _ _ _ _ hune, lookupA_setA_ne _ _ _ _ hune⟩
  · rw [relaxStep_eq_noupd hval hlt]
    exact ⟨rfl, rfl⟩

theorem relaxAll_po_stable {g : Graph} {s c : Node} {nc : Nat} {po : List Node}
    (l : List (Node × Nat)) :
    ∀ (st : DState), RelaxInv g s c nc po st →
      (∀ nw ∈ l, edgeWeight? g c nw.1 = some nw.2) →
      ∀ u ∈ po, lookupA (relaxAll c st l).distances u = lookupA st.distances u := by
  induction l with
  | nil => intro st _ _ u _; rfl
  | cons nw l' ih =>
    intro st hR hl u hu
    rw [relaxAll_cons]
    rw [ih _ (relaxStep_relaxInv hR (hl nw (List.mem_cons_self _ _)))
      (fun nw' hnw' => hl nw' (List.mem_cons_of_mem _ hnw')) u hu]
    exact (relaxStep_po_stable hR u hu).1

theorem pop_optInv_skip {g : Graph} {s : Node} {po : List Node}
    {d : List (Node × Dist)} {p : List (Node × Option Node)} {en : PQEntry}
    {rest : List PQEntry} (hL : LoopInv g s po ⟨d, p, ⟨en :: rest⟩⟩)
    (hO : OptInv g s po ⟨d, p, ⟨en :: rest⟩⟩)
    (htop : lookupA d en.element = some ⊤) :
    OptInv g s (po ++ [en.element]) ⟨d, p, ⟨rest⟩⟩ := by
  constructor
  · intro u hu nu hnu adj hadj nw hnw dv hdv
    rcases List.mem_append.mp hu with hu | hu
    · exact hO.settledTri u hu nu hnu adj hadj nw hnw dv hdv
    · have hueq : u = en.element := List.mem_singleton.mp hu
      have hnu' : lookupA d en.element = some (nu : Dist) := by
        rw [← hueq]
        exact hnu
      rw [htop] at hnu'
      exact absurd (Option.some_inj.mp hnu').symm (WithTop.natCast_ne_top nu)
  · intro u hu du hdu q hq
    rcases List.mem_append.mp hu with hu | hu
    · exact hO.settledMin u hu du hdu q hq
    · have hueq : u = en.element := List.mem_singleton.mp hu
      subst hueq
      have hpri : en.priority = ⊤ := by
        have hq'' : lookupA d en.element = some en.priority :=
          hL.qPri en (List.mem_cons_self _ _)
        rw [htop] at hq''
        exact (Option.some_inj.mp hq'').symm
      have hle := head_min_le_paths hL hO hq
      rw [hpri] at hle
      exact absurd (top_le_iff.mp hle) (WithTop.natCast_ne_top _)

theorem relax_optInv {g : Graph} {s : Node} {po : List Node}
    {d : List (Node × Dist)} {p : List (Node × Option Node)} {en : PQEntry}
    {rest : List PQEntry} {adj : List (Node × Nat)} {nc : Nat}
    (hL : LoopInv g s po ⟨d, p, ⟨en :: rest⟩⟩)
    (hO : OptInv g s po ⟨d, p, ⟨en :: rest⟩⟩) (hA : AdjNodup g)
    (hne : en.element ≠ "") (hnc : lookupA d en.element = some (nc : Dist))
    (hadj : lookupA g en.element = some adj) :
    OptInv g s (po ++ [en.element])
      (relaxAll en.element ⟨d, p, ⟨rest⟩⟩ adj) := by
  have hrel := pop_relaxInv hL hne hnc
  have hedges := adj_edges hA hadj
  have hstable := relaxAll_po_stable adj ⟨d, p, ⟨rest⟩⟩ hrel hedges
  have hc₂ : lookupA (relaxAll en.element (⟨d, p, ⟨rest⟩⟩ : DState) adj).distances
      en.element = some (nc : Dist) := by
    rw [relaxAll_c_stable]
    exact hnc
  have hprinc : en.priority = (nc : Dist) := by
    have hq'' : lookupA d en.element = some en.priority :=
      hL.qPri en (List.mem_cons_self _ _)
    rw [hnc] at hq''
    exact (Option.some_inj.mp hq'').symm
  constructor
  · intro u hu nu hnu adj' hadj' nw hnw dv hdv
    rcases List.mem_append.mp hu with hu | hu
    · have hstu := hstable u (List.mem_append_left _ hu)
      have h := hnu
      rw [hstu] at h
      have hnu₁ : lookupA (DState.mk d p ⟨en :: rest⟩).distances u = some (nu : Dist) := h
      rcases relaxAll_changes en.element adj ⟨d, p, ⟨rest⟩⟩ nw.1 with
        ⟨hd, _⟩ | ⟨dv₀, nv, h1, h2, h3, _⟩
      · have h' := hdv
        rw [hd] at h'
        have hdv₁ : lookupA (DState.mk d p ⟨en :: rest⟩).distances nw.1 = some dv := h'
        exact hO.settledTri u hu nu hnu₁ adj' hadj' nw hnw dv hdv₁
      · have hdveq : dv = (nv : Dist) := by
          have h2' := h2
          rw [hdv] at h2'
          exact Option.some_inj.mp h2'
        have h1' : lookupA (DState.mk d p ⟨en :: rest⟩).distances nw.1 = some dv₀ := h1
        have hold := hO.settledTri u hu nu hnu₁ adj' hadj' nw hnw dv₀ h1'
        rw [hdveq]
        exact le_trans (le_of_lt h3) hold
    · have hueq : u = en.element := List.mem_singleton.mp hu
      have hadjeq : adj' = adj := by
        rw [hueq, hadj] at hadj'
        exact (Option.some_inj.mp hadj').symm
      have hnueq : nu = nc := by
        have h := hnu
        rw [hueq, hc₂] at h
        exact (Nat.cast_inj.mp (Option.some_inj.mp h)).symm
      have hnw' : nw ∈ adj := by
        rw [← hadjeq]
        exact hnw
      have htri := relaxAll_tri en.element adj ⟨d, p, ⟨rest⟩⟩ nw hnw' dv hdv
      have hlook : lookupA (DState.mk d p ⟨rest⟩).distances en.element =
          some ((nc : Nat) : Dist) := hnc
      rw [hlook] at htri
      rw [show ((some ((nc : Nat) : Dist)).getD ⊤ : Dist) = ((nc : Nat) : Dist)
        from rfl] at htri
      rw [show ((nc : Nat) : Dist) + (nw.2 : Dist) = ((nc + nw.2 : Nat) : Dist)
        from (Nat.cast_add nc nw.2).symm] at htri
      rw [hnueq]
      exact htri
  · intro u hu du hdu q hq
    rcases List.mem_append.mp hu with hu | hu
    · have hstu := hstable u (List.mem_append_left _ hu)
      have h := hdu
      rw [hstu] at h
      have hdu₁ : lookupA (DState.mk d p ⟨en :: rest⟩).distances u = some du := h
      exact hO.settledMin u hu du hdu₁ q hq
    · have hueq : u = en.element := List.mem_singleton.mp hu
      subst hueq
      have hdueq : du = (nc : Dist) := by
        have h := hdu
        rw [hc₂] at h
        exact (Option.some_inj.mp h).symm
      rw [hdueq, ← hprinc]
      exact head_min_le_paths hL hO hq

/-! ## Correctness of the reconstruction walk -/

theorem head?_append_left {α : Type} {l l' : List α} {a : α} (h : l.head? = some a) :
    (l ++ l').head? = some a := by
  cases l with
  | nil => exact absurd h (by simp)
  | cons x xs => exact h

theorem walk_start_chain {g : Graph} {s : Node} {po : List Node} {st : DState}
    (hL : LoopInv g s po st) (hs : s ∈ keys g) (e' : Node) {n : Nat}
    (hn : lookupA st.distances s = some (n : Dist)) (fuel : Nat)
    (hfuel : 1 ≤ fuel) (acc : List Node) :
    ∃ chain, walk1 st.previousNodes s e' fuel (some s) acc = some (chain ++ acc) ∧
      IsPath g s s chain ∧ pathWeight g chain = n ∧ chain.head? = some s := by
  obtain ⟨fuel', rfl⟩ : ∃ f, fuel = f + 1 := ⟨fuel - 1, by omega⟩
  have h0 := (hL.dStart hs).1
  rw [h0] at hn
  have hn0 : n = 0 := by
    have h' : ((0 : Nat) : Dist) = (n : Dist) := by
      rw [Nat.cast_zero]
      exact Option.some_inj.mp hn
    exact (Nat.cast_inj.mp h').symm
  refine ⟨[s], ?_, IsPath.single s ((lookupA_isSome_iff g s).mpr hs), by
    rw [pathWeight_single, hn0], rfl⟩
  rw [walk1, (hL.dStart hs).2]
  dsimp only
  rw [if_pos rfl, List.singleton_append]

theorem walkAux {g : Graph} {s : Node} {po : List Node} {st : DState}
    (hL : LoopInv g s po st) (hs : s ∈ keys g) (e' : Node) :
    ∀ (k : Nat) (v : Node), v ∈ po → ∀ n : Nat,
      lookupA st.distances v = some (n : Dist) →
      po.indexOf v ≤ k → ∀ (fuel : Nat), k + 1 ≤ fuel → ∀ (acc : List Node),
      ∃ chain, walk1 st.previousNodes s e' fuel (some v) acc = some (chain ++ acc) ∧
        IsPath g s v chain ∧ pathWeight g chain = n ∧ chain.head? = some s := by
  intro k
  induction k with
  | zero =>
    intro v hv n hn hidx fuel hfuel acc
    by_cases hvs : v = s
    · rw [hvs] at hn ⊢
      exact walk_start_chain hL hs e' hn fuel (by omega) acc
    · obtain ⟨u, w, m, hprev, hupo, hune, hedge, hum, hnmw, hio⟩ := hL.pred v n hvs hn
      exact absurd (Nat.lt_of_lt_of_le (hio hv) hidx) (Nat.not_lt_zero _)
  | succ k ih =>
    intro v hv n hn hidx fuel hfuel acc
    by_cases hvs : v = s
    · rw [hvs] at hn ⊢
      exact walk_start_chain hL hs e' hn fuel (by omega) acc
    · obtain ⟨u, w, m, hprev, hupo, hune, hedge, hum, hnmw, hio⟩ := hL.pred v n hvs hn
      obtain ⟨fuel', rfl⟩ : ∃ f, fuel = f + 1 := ⟨fuel - 1, by omega⟩
      have hidxu : po.indexOf u ≤ k := by
        have := hio hv
        omega
      obtain ⟨chain, hwalk, hpath, hwt, hhd⟩ :=
        ih u hupo m hum hidxu fuel' (by omega) (v :: acc)
      have hguard : ¬((some u = none ∨ some u = some "") ∧ s ≠ e') := by
        intro hcon
        rcases hcon.1 with h1 | h2
        · exact absurd h1 (by simp)
        · exact hune (Option.some_inj.mp h2)
      have hstep : walk1 st.previousNodes s e' (fuel' + 1) (some v) acc =
          walk1 st.previousNodes s e' fuel' (some u) (v :: acc) := by
        rw [walk1, hprev]
        dsimp only
        rw [if_neg hvs, if_neg hguard]
      refine ⟨chain ++ [v], ?_, isPath_append_edge hpath hedge
        (hL.poKeys v hv), ?_, head?_append_left hhd⟩
      · rw [hstep, hwalk, List.append_assoc, List.singleton_append]
      · rw [pathWeight_append_edge hpath hedge, hwt, hnmw]

theorem reconstruct_correct {g : Graph} {s e : Node} {po : List Node}
    {d : List (Node × Dist)} {p : List (Node × Option Node)} {q : PriorityQueue}
    (hL : LoopInv g s po ⟨d, p, q⟩) (hs : s ∈ keys g) (he : e ∈ po) {n : Nat}
    (hn : lookupA d e = some (n : Dist)) :
    ∃ chain, reconstructResult s e d p = some ⟨chain, (n : Dist)⟩ ∧
      IsPath g s e chain ∧ pathWeight g chain = n := by
  have hplen : po.length ≤ p.length := by
    have h1 : po.toFinset.card = po.length := List.toFinset_card_of_nodup hL.poNodup
    have h2 : po.toFinset ⊆ (keys g).toFinset := by
      intro x hx
      rw [List.mem_toFinset] at hx ⊢
      exact hL.poKeys x hx
    have h3 : (keys g).toFinset.card ≤ (keys g).length := (keys g).toFinset_card_le
    have h4 : (keys g).length = p.length := by
      have h6 := hL.pKeys
      have h5 : (keys p).length = p.length := List.length_map p Prod.fst
      rw [← h5, h6]
    calc po.length = po.toFinset.card := h1.symm
      _ ≤ (keys g).toFinset.card := Finset.card_le_card h2
      _ ≤ (keys g).length := h3
      _ = p.length := h4
  have hidx : po.indexOf e < po.length := List.indexOf_lt_length.mpr he
  obtain ⟨chain, hwalk, hpath, hwt, hhd⟩ :=
    walkAux hL hs e (po.indexOf e) e he n hn (le_refl _) (p.length + 1)
      (by omega) []
  have hwalk' : walk1 p s e (p.length + 1) (some e) [] = some (chain ++ []) := hwalk
  rw [List.append_nil] at hwalk'
  refine ⟨chain, ?_, hpath, hwt⟩
  rw [reconstructResult, hwalk']
  dsimp only
  rw [hn]
  have hcond1 : ¬(chain.head? ≠ some s ∧ s = e) := fun hc => hc.1 hhd
  rw [if_neg hcond1]
  rw [if_neg (fun hc => hc hhd)]
  rfl

/-! ## The main loop returns a shortest path -/

theorem loopE_correct (g : Graph) (s e : Node) (hA : AdjNodup g)
    (hkeys : ∀ k ∈ keys g, k ≠ "") (hs : s ∈ keys g) :
    ∀ (fuel : Nat) (po : List Node) (st : DState),
      fuel = st.pq.elements.length →
      LoopInv g s po st → OptInv g s po st →
      e ∉ po → e ∈ keys g → (∃ q0, IsPath g s e q0) →
      ∃ res, dijkstraLoopE g s e fuel st = some (some res) ∧
        IsPath g s e res.path ∧
        res.distance = ((pathWeight g res.path : Nat) : Dist) ∧
        ∀ q, IsPath g s e q → res.distance ≤ ((pathWeight g q : Nat) : Dist) := by
  intro fuel
  induction fuel with
  | zero =>
    intro po st hfe hL hO hepo hek hconn
    have hnil : st.pq.elements = [] := List.length_eq_zero.mp hfe.symm
    have hmem := (hL.qElems e).mpr ⟨hek, hepo⟩
    rw [hnil] at hmem
    exact absurd hmem (by simp)
  | succ k ih =>
    intro po st hfe hL hO hepo hek hconn
    obtain ⟨d, p, ⟨els⟩⟩ := st
    cases els with
    | nil =>
      have hmem := (hL.qElems e).mpr ⟨hek, hepo⟩
      exact absurd hmem (by simp)
    | cons en rest =>
      have hkrest : k = rest.length := by
        have h7 : k + 1 = (en :: rest).length := hfe
        simpa using h7
      have hck : en.element ∈ keys g := by
        have hmem : en.element ∈ (en :: rest).map PQEntry.element :=
          List.mem_map.mpr ⟨en, List.mem_cons_self _ _, rfl⟩
        exact ((hL.qElems en.element).mp hmem).1
      have hcne : en.element ≠ "" := hkeys en.element hck
      have hcd : ∃ dc, lookupA d en.element = some dc := by
        have h8 : en.element ∈ keys ((⟨d, p, ⟨en :: rest⟩⟩ : DState).distances) := by
          rw [hL.dKeys]
          exact hck
        exact Option.isSome_iff_exists.mp ((lookupA_isSome_iff _ _).mpr h8)
      obtain ⟨dc, hdc⟩ := hcd
      rw [dijkstraLoopE, if_neg (by simp : ¬((⟨d, p,
        ⟨en :: rest⟩⟩ : DState).pq.elements = []))]
      by_cases hskip : en.element = "" ∨ lookupA d en.element = some ⊤
      · have htop : lookupA d en.element = some ⊤ := by
          rcases hskip with h1 | h2
          · exact absurd h1 hcne
          · exact h2
        have hene : e ≠ en.element := by
          intro hcon
          obtain ⟨q0, hq0⟩ := hconn
          rw [hcon] at hq0
          have hpri : en.priority = ⊤ := by
            have hq'' : lookupA d en.element = some en.priority :=
              hL.qPri en (List.mem_cons_self _ _)
            rw [htop] at hq''
            exact (Option.some_inj.mp hq'').symm
          have hle := head_min_le_paths hL hO hq0
          rw [hpri] at hle
          exact absurd (top_le_iff.mp hle) (WithTop.natCast_ne_top _)
        have hit : loopIter g s e ⟨d, p, ⟨en :: rest⟩⟩ =
            Sum.inr ⟨d, p, ⟨rest⟩⟩ := by
          rw [loopIter_cons, if_pos hskip]
        rw [hit]
        have hL' := (pop_loopInv hL).1
        have hO' := pop_optInv_skip hL hO htop
        have hepo' : e ∉ po ++ [en.element] := by
          intro hcon
          rcases List.mem_append.mp hcon with h1 | h2
          · exact hepo h1
          · exact hene (List.mem_singleton.mp h2)
        exact ih (po ++ [en.element]) ⟨d, p, ⟨rest⟩⟩ hkrest hL' hO' hepo' hek hconn
      · push_neg at hskip
        have hfin : dc ≠ ⊤ := by
          intro hcon
          rw [hcon] at hdc
          exact hskip.2 hdc
        obtain ⟨nc, hnceq⟩ := dist_ne_top_iff.mp hfin
        rw [hnceq] at hdc
        have hprinc : en.priority = (nc : Dist) := by
          have hq'' : lookupA d en.element = some en.priority :=
            hL.qPri en (List.mem_cons_self _ _)
          rw [hdc] at hq''
          exact (Option.some_inj.mp hq'').symm
        by_cases hce : en.element = e
        · have hit : loopIter g s e ⟨d, p, ⟨en :: rest⟩⟩ =
              Sum.inl (reconstructResult s e d p) := by
            rw [loopIter_cons, if_neg (by
              intro hcon
              rcases hcon with h1 | h2
              · exact hcne h1
              · exact hskip.2 h2), if_pos hce]
          rw [hit]
          have hL' := (pop_loopInv hL).1
          have hee : e ∈ po ++ [en.element] := by
            rw [hce]
            exact List.mem_append_right _ (List.mem_singleton_self _)
          have hne : lookupA d e = some (nc : Dist) := by
            rw [← hce]
            exact hdc
          obtain ⟨chain, hrec, hpath, hwt⟩ := reconstruct_correct hL' hs hee hne
          refine ⟨⟨chain, (nc : Dist)⟩, by rw [hrec], hpath, by
            dsimp only
            rw [hwt], ?_⟩
          intro q hq
          dsimp only
          rw [← hprinc]
          apply head_min_le_paths hL hO
          rw [hce]
          exact hq
        · obtain ⟨adj, hadj⟩ :=
            Option.isSome_iff_exists.mp ((lookupA_isSome_iff g en.element).mpr hck)
          have hit : loopIter g s e ⟨d, p, ⟨en :: rest⟩⟩ =
              Sum.inr (relaxAll en.element ⟨d, p, ⟨rest⟩⟩ adj) := by
            rw [loopIter_cons, if_neg (by
              intro hcon
              rcases hcon with h1 | h2
              · exact hcne h1
              · exact hskip.2 h2), if_neg hce]
            rw [hadj]
          rw [hit]
          have hrel := pop_relaxInv hL hcne hdc
          have hL' := (relaxAll_relaxInv adj ⟨d, p, ⟨rest⟩⟩ hrel
            (adj_edges hA hadj)).inv
          have hO' := relax_optInv hL hO hA hcne hdc hadj
          have hepo' : e ∉ po ++ [en.element] := by
            intro hcon
            rcases List.mem_append.mp hcon with h1 | h2
            · exact hepo h1
            · exact hce (List.mem_singleton.mp h2).symm
          have hklen : k = (relaxAll en.element
              (⟨d, p, ⟨rest⟩⟩ : DState) adj).pq.elements.length := by
            have hlen := loopIter_inr_length hit
            have h9 : (en :: rest).length = k + 1 := hfe.symm
            simp only [List.length_cons] at h9 hlen
            omega
          exact ih (po ++ [en.element]) _ hklen hL' hO' hepo' hek hconn

theorem pqReachable_sorted {q : PriorityQueue} (h : PQReachable q) :
    q.elements.Pairwise entryLE := by
  induction h with
  | empty => simp
  | enqueue q x p _ _ => exact enqueue_sorted _ _ _
  | update q x p _ ih => exact updatePriority_sorted _ _ _ ih

/-! ## Claim theorems -/

/-- C2: On the concrete symmetric graph with edges A-B(1), A-C(4), B-C(2),
B-D(7), C-D(1), C-E(5), D-E(2), D-F(3), E-F(6), `dijkstra(graph, "A", "F")`
returns distance 7 and path [A, B, C, D, F]. -/
theorem c2_concrete_scenario1 :
    dijkstra gScenario1 "A" "F" = some ⟨["A", "B", "C", "D", "F"], 7⟩ := by
  decide

/-- C5: On the graph {A: {B: 0}, B: {A: 0}} with the single zero-weight
undirected edge A-B(0), `dijkstra(graph, "A", "B")` returns path [A, B] and
distance 0. -/
theorem c5_zero_weight_edge :
    dijkstra gZero "A" "B" = some ⟨["A", "B"], 0⟩ := by
  decide

/-- C8 counterexample: ties are not broken in first-inserted-first-extracted
order.  Enqueue "a" (priority 5) before "b" (priority 3), then lower "a" to 3:
both entries now have priority 3, yet `dequeue` returns "b", which was
inserted after "a".  The in-place `updatePriority` keeps the entry at its
current list position, so the stable re-sort orders ties by list position,
not by insertion time. -/
theorem c8_counterexample :
    ((((⟨[]⟩ : PriorityQueue).enqueue "a" 5).enqueue "b" 3).updatePriority "a" 3).elements
        = [⟨"b", 3⟩, ⟨"a", 3⟩] ∧
      ((((⟨[]⟩ : PriorityQueue).enqueue "a" 5).enqueue "b" 3).updatePriority "a" 3).dequeue
        = (some ⟨"b", 3⟩, ⟨[⟨"a", 3⟩]⟩) := by
  constructor
  · decide
  · decide

/-- C8 (amended): for every `PriorityQueue` state reachable by `enqueue` and
`updatePriority` calls, `dequeue` removes and returns an entry whose priority
is less than or equal to every remaining entry's priority, and returns empty
exactly when the queue holds no entries.  Tie-breaking is deterministic (the
stable sort keeps the current list order of equal priorities), but after an
in-place `updatePriority` it need not follow first-inserted-first-extracted
order. -/
theorem c8_dequeue_min (q : PriorityQueue) (hq : PQReachable q) :
    (q.dequeue.1 = none ↔ q.elements = []) ∧
      ∀ en rest, q.elements = en :: rest →
        q.dequeue = (some en, ⟨rest⟩) ∧ ∀ e' ∈ q.elements, en.priority ≤ e'.priority := by
  have hsorted := pqReachable_sorted hq
  constructor
  · rw [PriorityQueue.dequeue]
    cases q.elements <;> simp
  · intro en rest hels
    rw [PriorityQueue.dequeue, hels]
    refine ⟨rfl, ?_⟩
    rw [hels] at hsorted
    intro e' he'
    rcases List.mem_cons.mp he' with he' | he'
    · rw [he']
    · exact (List.pairwise_cons.mp hsorted).1 e' he'

theorem c8_dequeue_min_witness :
    ((((⟨[]⟩ : PriorityQueue).enqueue "a" 5).enqueue "b" 3).dequeue.1 = none ↔
        (((⟨[]⟩ : PriorityQueue).enqueue "a" 5).enqueue "b" 3).elements = []) ∧
      ∀ en rest,
        (((⟨[]⟩ : PriorityQueue).enqueue "a" 5).enqueue "b" 3).elements = en :: rest →
        (((⟨[]⟩ : PriorityQueue).enqueue "a" 5).enqueue "b" 3).dequeue = (some en, ⟨rest⟩) ∧
          ∀ e' ∈ (((⟨[]⟩ : PriorityQueue).enqueue "a" 5).enqueue "b" 3).elements,
            en.priority ≤ e'.priority :=
  c8_dequeue_min _
    (PQReachable.enqueue _ "b" 3 (PQReachable.enqueue _ "a" 5 PQReachable.empty))

/-- C9: for every graph and every (start, end), `dijkstra` terminates: the
frontier initially holds one entry per graph key, each loop iteration removes
exactly one entry and adds none, and running the loop with fuel equal to the
current queue length always completes (so it runs at most as many iterations
as the graph has nodes). -/
theorem c9_termination (g : Graph) (s e : Node) :
    ((initState g s).pq.elements.map PQEntry.element).Perm (keys g) ∧
      (initState g s).pq.elements.length = g.length ∧
      (∀ st st' : DState, loopIter g s e st = Sum.inr st' →
        st'.pq.elements.length + 1 = st.pq.elements.length) ∧
      ∀ st : DState, (dijkstraLoopE g s e st.pq.elements.length st).isSome :=
  ⟨initState_pq_map_perm g s, initState_pq_length g s,
    fun _ _ h => loopIter_inr_length h,
    fun st => dijkstraLoopE_isSome g s e _ st le_rfl⟩

theorem c9_termination_witness :
    ((initState gScenario1 "A").pq.elements.map PQEntry.element).Perm (keys gScenario1) ∧
      (initState gScenario1 "A").pq.elements.length = gScenario1.length ∧
      (∀ st st' : DState, loopIter gScenario1 "A" "F" st = Sum.inr st' →
        st'.pq.elements.length + 1 = st.pq.elements.length) ∧
      ∀ st : DState,
        (dijkstraLoopE gScenario1 "A" "F" st.pq.elements.length st).isSome :=
  c9_termination gScenario1 "A" "F"

/-- C10: whenever `dijkstra(graph, start, end)` returns a non-null result, the
returned path is nonempty, its first element is the start node, its last
element is the end node, and the returned distance is finite (never the
`Infinity` sentinel). -/
theorem c10_result_shape (g : Graph) (s e : Node) (res : DijkstraResult)
    (h : dijkstra g s e = some res) :
    res.path ≠ [] ∧ res.path.head? = some s ∧ res.path.getLast? = some e ∧
      res.distance ≠ ⊤ := by
  have h' : (dijkstraLoopE g s e (initState g s).pq.elements.length
      (initState g s)).getD none = some res := h
  cases hE : dijkstraLoopE g s e (initState g s).pq.elements.length (initState g s) with
  | none =>
    rw [hE] at h'
    exact absurd h' (by simp)
  | some r =>
    rw [hE] at h'
    have hr : r = some res := h'
    rw [hr] at hE
    exact loopE_result_props g s e _ _ res (initState_mkeys g s) hE

theorem c10_result_shape_witness :
    (⟨["A", "B"], (0 : Dist)⟩ : DijkstraResult).path ≠ [] ∧
      (⟨["A", "B"], (0 : Dist)⟩ : DijkstraResult).path.head? = some "A" ∧
      (⟨["A", "B"], (0 : Dist)⟩ : DijkstraResult).path.getLast? = some "B" ∧
      (⟨["A", "B"], (0 : Dist)⟩ : DijkstraResult).distance ≠ ⊤ :=
  c10_result_shape gZero "A" "B" ⟨["A", "B"], 0⟩ (by decide)

/-- C3 counterexample: the single-node graph whose node is named by the empty
string.  The empty string is a key of the graph, yet `dijkstra(g, "", "")`
returns null, because line 32's `!currentNode` treats the falsy node name
like an unreachable node and skips it. -/
theorem c3_counterexample :
    ("" ∈ keys gNilName) ∧ dijkstra gNilName "" "" = none := by
  constructor
  · decide
  · decide

/-- C6: during every run of `dijkstra` (on a well-formed JS graph), every
frontier entry's recorded priority equals the current distance-table value for
that node — `updatePriority` rewrites the stored entry in place, so stale
entries never arise — and (vacuously, as the premise never holds) an extracted
entry whose priority differs from the distance table would be discarded with
the loop simply continuing. -/
theorem c6_no_stale_entries (g : Graph) (s e : Node) (hN : KeysNodup g)
    (hA : AdjNodup g) (st : DState) (hr : ReachableState g s e st) :
    (∀ en ∈ st.pq.elements, lookupA st.distances en.element = some en.priority) ∧
      ∀ en rest, st.pq.elements = en :: rest →
        lookupA st.distances en.element ≠ some en.priority →
        loopIter g s e st = Sum.inr { st with pq := ⟨rest⟩ } := by
  obtain ⟨po, h⟩ := reachable_loopInv hN hA hr
  refine ⟨h.qPri, ?_⟩
  intro en rest hels hcon
  exact absurd (h.qPri en (by rw [hels]; exact List.mem_cons_self _ _)) hcon

theorem c6_no_stale_entries_witness :
    (∀ en ∈ (initState gScenario1 "A").pq.elements,
        lookupA (initState gScenario1 "A").distances en.element = some en.priority) ∧
      ∀ en rest, (initState gScenario1 "A").pq.elements = en :: rest →
        lookupA (initState gScenario1 "A").distances en.element ≠ some en.priority →
        loopIter gScenario1 "A" "F" (initState gScenario1 "A") =
          Sum.inr { initState gScenario1 "A" with pq := ⟨rest⟩ } :=
  c6_no_stale_entries gScenario1 "A" "F" (by unfold KeysNodup; decide)
    (by unfold AdjNodup; decide) _ ⟨0, rfl⟩

/-- C7: across one iteration of the main loop (from any reachable state of a
run on a well-formed JS graph), every node's distance-table value is
non-increasing, and the node's `previousNodes` entry changes exactly when its
distance strictly decreases — distance and predecessor update in lock-step. -/
theorem c7_monotone_lockstep (g : Graph) (s e : Node) (hN : KeysNodup g)
    (hA : AdjNodup g) (st st' : DState) (hr : ReachableState g s e st)
    (hit : loopIter g s e st = Sum.inr st') :
    ∀ v dv, lookupA st.distances v = some dv →
      ∃ dv', lookupA st'.distances v = some dv' ∧ dv' ≤ dv ∧
        (lookupA st'.previousNodes v ≠ lookupA st.previousNodes v ↔ dv' < dv) := by
  obtain ⟨po, h⟩ := reachable_loopInv hN hA hr
  obtain ⟨d, p, ⟨els⟩⟩ := st
  obtain ⟨en, rest, hels, hcase⟩ := loopIter_inr_cases hit
  subst hels
  intro v dv hdv
  obtain ⟨_, hck, hcpo⟩ := pop_loopInv h
  rcases hcase with ⟨hst', _⟩ | ⟨_, _, hcase⟩
  · subst hst'
    exact ⟨dv, hdv, le_refl _, by simp⟩
  · rcases hcase with ⟨_, hst'⟩ | ⟨adj, hadj, hst'⟩
    · subst hst'
      exact ⟨dv, hdv, le_refl _, by simp⟩
    · subst hst'
      rcases relaxAll_changes en.element adj ⟨d, p, ⟨rest⟩⟩ v with
        ⟨hd, hp⟩ | ⟨dv₀, nv, h1', h2', h3', h4'⟩
      · refine ⟨dv, by rw [hd]; exact hdv, le_refl _, ?_⟩
        rw [hp]
        simp
      · have hdveq : dv₀ = dv := by
          have : lookupA d v = some dv₀ := h1'
          rw [hdv] at this
          exact (Option.some_inj.mp this).symm
        subst hdveq
        refine ⟨(nv : Dist), h2', le_of_lt h3', ?_⟩
        constructor
        · intro _
          exact h3'
        · intro _
          rw [h4']
          show some (some en.element) ≠ lookupA p v
          by_cases hdvtop : dv₀ = ⊤
          · have hpn : lookupA p v = some none := h.predNone v (by rw [← hdvtop]; exact hdv)
            rw [hpn]
            simp
          · obtain ⟨n, hn⟩ := dist_ne_top_iff.mp hdvtop
            by_cases hvseq : v = s
            · have hdk : keys d = keys g := h.dKeys
              have hvk : v ∈ keys d :=
                mem_keys_of_lookupA (show lookupA d v = some dv₀ from hdv)
              have hsk : s ∈ keys g := by
                rw [← hvseq, ← hdk]
                exact hvk
              have hs0 : lookupA d s = some 0 := (h.dStart hsk).1
              have hdv' : lookupA d s = some dv₀ := by
                rw [← hvseq]
                exact hdv
              rw [hs0] at hdv'
              have h0 : dv₀ = 0 := (Option.some_inj.mp hdv').symm
              rw [h0] at h3'
              exact absurd h3' (not_lt.mpr (zero_le _))
            · obtain ⟨u, w', m, hpv, hupo, _⟩ :=
                h.pred v n hvseq (by rw [← hn]; exact hdv)
              rw [show lookupA p v = some (some u) from hpv]
              intro hcon
              have hcu : en.element = u := by
                have h1 := Option.some_inj.mp hcon
                exact Option.some_inj.mp h1
              exact hcpo (hcu ▸ hupo)

theorem c7_monotone_lockstep_witness :
    ∃ dv', lookupA (⟨[("", 0)], [("", none)], ⟨[]⟩⟩ : DState).distances "" =
        some dv' ∧ dv' ≤ (0 : Dist) ∧
      ((lookupA (⟨[("", 0)], [("", none)], ⟨[]⟩⟩ : DState).previousNodes "" ≠
          lookupA (initState gNilName "").previousNodes "") ↔ dv' < (0 : Dist)) :=
  c7_monotone_lockstep gNilName "" "X" (by unfold KeysNodup; decide)
    (by unfold AdjNodup; decide) _ _ ⟨0, rfl⟩ (by decide) "" 0 (by decide)

theorem loopE_no_result (g : Graph) (s e : Node) (hA : AdjNodup g)
    (hcond : s ∉ keys g ∨ e ∉ keys g ∨ (s ≠ e ∧ ¬∃ q, IsPath g s e q)) :
    ∀ (fuel : Nat) (po : List Node) (st : DState), LoopInv g s po st →
      ∀ res, dijkstraLoopE g s e fuel st ≠ some (some res) := by
  intro fuel
  induction fuel with
  | zero =>
    intro po st h res
    rw [dijkstraLoopE]
    split
    · simp
    · simp
  | succ k ih =>
    intro po st h res
    rw [dijkstraLoopE]
    by_cases hpq : st.pq.elements = []
    · rw [if_pos hpq]
      simp
    · rw [if_neg hpq]
      cases hit : loopIter g s e st with
      | inr st' =>
        obtain ⟨c, _, hc⟩ := loopIter_inr_loopInv hA h hit
        exact ih _ _ hc res
      | inl r =>
        obtain ⟨d, p, ⟨els⟩⟩ := st
        cases els with
        | nil => exact absurd rfl hpq
        | cons en rest =>
          rw [loopIter_cons] at hit
          by_cases h1 : en.element = "" ∨ lookupA d en.element = some ⊤
          · rw [if_pos h1] at hit
            exact absurd hit (by simp)
          · rw [if_neg h1] at hit
            by_cases h2 : en.element = e
            · exfalso
              push_neg at h1
              have hcmem : en.element ∈ (en :: rest).map PQEntry.element :=
                List.mem_map.mpr ⟨en, List.mem_cons_self _ _, rfl⟩
              obtain ⟨hck, _⟩ := (h.qElems en.element).mp hcmem
              have hkD : en.element ∈ keys d := by
                rw [show keys d = keys g from h.dKeys]
                exact hck
              obtain ⟨dv, hdv⟩ := Option.isSome_iff_exists.mp
                ((lookupA_isSome_iff d _).mpr hkD)
              have hdvne : dv ≠ ⊤ := by
                intro hcon
                rw [hcon] at hdv
                exact h1.2 hdv
              obtain ⟨n, hn⟩ := dist_ne_top_iff.mp hdvne
              obtain ⟨pth, hpth, _⟩ := h.dAttain en.element n (by rw [← hn]; exact hdv)
              rw [h2] at hpth
              rcases hcond with hc | hc | hc
              · exact hc (isPath_source_mem_keys hpth)
              · exact hc (h2 ▸ hck)
              · exact hc.2 ⟨pth, hpth⟩
            · rw [if_neg h2] at hit
              cases hadj : lookupA g en.element with
              | none =>
                rw [hadj] at hit
                exact absurd hit (by simp)
              | some adj =>
                rw [hadj] at hit
                exact absurd hit (by simp)

/-- C4: for every well-formed JS graph and every pair (start, end): if start
or end is not a key of the graph, or start ≠ end and no sequence of edges
connects start to end, then `dijkstra(graph, start, end)` returns null.  The
model is a total function into `Option`, so the null return is the only
failure signal and no exception is raised. -/
theorem c4_not_found (g : Graph) (s e : Node) (hN : KeysNodup g) (hA : AdjNodup g)
    (hcond : s ∉ keys g ∨ e ∉ keys g ∨ (s ≠ e ∧ ¬∃ q, IsPath g s e q)) :
    dijkstra g s e = none := by
  show (dijkstraLoopE g s e (initState g s).pq.elements.length
    (initState g s)).getD none = none
  have hno := loopE_no_result g s e hA hcond
    (initState g s).pq.elements.length [] (initState g s) (initState_loopInv g s hN)
  cases hE : dijkstraLoopE g s e (initState g s).pq.elements.length (initState g s) with
  | none => rfl
  | some r =>
    cases r with
    | none => rfl
    | some res =>
      exact absurd hE (hno res)

theorem c4_not_found_witness : dijkstra gZero "X" "B" = none :=
  c4_not_found gZero "X" "B" (by unfold KeysNodup; decide) (by unfold AdjNodup; decide)
    (Or.inl (by decide))

/-- C3 (amended): for every graph and every node s present as a key of the
graph with s not the empty string, `dijkstra(graph, s, s)` returns the
single-element path [s] with distance 0.  (The `Nodup` hypothesis records that
a JS object cannot repeat a key.) -/
theorem c3_start_eq_end (g : Graph) (s : Node) (hN : KeysNodup g)
    (hs : s ∈ keys g) (hne : s ≠ "") :
    dijkstra g s s = some ⟨[s], 0⟩ := by
  have hInv := initState_invariant g s hN
  show (dijkstraLoopE g s s (initState g s).pq.elements.length (initState g s)).getD none
      = some ⟨[s], 0⟩
  cases hstEq : initState g s with
  | mk d p q =>
    cases q with
    | mk els =>
      rw [hstEq] at hInv
      have hdl : lookupA d s = some 0 := by
        have hl := hInv.dLook s
        rw [if_pos hs, if_pos rfl] at hl
        exact hl
      have hpl : lookupA p s = some none := by
        have hl := hInv.pLook s
        rw [if_pos hs] at hl
        exact hl
      have hsmem : s ∈ els.map PQEntry.element := hInv.qMap.mem_iff.mpr hs
      obtain ⟨en, hen, hel⟩ := List.mem_map.mp hsmem
      have henp : en.priority = 0 := by
        have hq := hInv.qPri en hen
        rw [hel, hdl] at hq
        exact (Option.some_inj.mp hq).symm
      cases els with
      | nil => simp at hen
      | cons en₀ rest =>
        have h0p : en₀.priority = 0 := by
          rcases List.mem_cons.mp hen with he | he
          · rw [← he, henp]
          · have hle : en₀.priority ≤ en.priority :=
              (List.pairwise_cons.mp hInv.qSorted).1 en he
            rw [henp] at hle
            exact le_antisymm hle (zero_le _)
        have h0el : en₀.element = s := by
          have hq := hInv.qPri en₀ (List.mem_cons_self _ _)
          rw [h0p] at hq
          have hl := hInv.dLook en₀.element
          rw [hq] at hl
          by_cases hk : en₀.element ∈ keys g
          · rw [if_pos hk] at hl
            by_cases hes : en₀.element = s
            · exact hes
            · rw [if_neg hes] at hl
              exact absurd (Option.some_inj.mp hl) (by decide)
          · rw [if_neg hk] at hl
            exact absurd hl (by simp)
        have hwalk : walk1 p s s (p.length + 1) (some s) [] = some [s] := by
          rw [walk1, hpl]
          simp
        have hrec : reconstructResult s s d p = some ⟨[s], 0⟩ := by
          rw [reconstructResult, hwalk]
          simp [hdl]
        have hskip : ¬(en₀.element = "" ∨ lookupA d en₀.element = some ⊤) := by
          rw [h0el, hdl]
          push_neg
          exact ⟨hne, by decide⟩
        have hlen : (⟨d, p, ⟨en₀ :: rest⟩⟩ : DState).pq.elements.length =
            rest.length + 1 := rfl
        rw [hlen, dijkstraLoopE,
          if_neg (by simp : ¬((⟨d, p, ⟨en₀ :: rest⟩⟩ : DState).pq.elements = [])),
          loopIter_cons, if_neg hskip, if_pos h0el, hrec]
        rfl

theorem c3_start_eq_end_witness :
    dijkstra gZero "A" "A" = some ⟨["A"], 0⟩ :=
  c3_start_eq_end gZero "A" (by unfold KeysNodup; decide) (by decide) (by decide)

/-- C1 (amended): for every well-formed symmetric graph with non-negative
integer edge weights all of whose node identifiers are non-empty strings, and
every pair of graph keys connected by some path, `dijkstra` returns a non-null
result whose path is a valid start-to-end path, whose distance equals the sum
of the edge weights along that path, and no other start-to-end path has a
strictly smaller total weight.  (The original claim, without the non-empty-key
restriction, fails: see the counterexample.) -/
theorem c1_dijkstra_correct (g : Graph) (s e : Node) (hN : KeysNodup g)
    (hA : AdjNodup g) (hsym : SymmetricG g) (hkeys : ∀ k ∈ keys g, k ≠ "")
    (hs : s ∈ keys g) (he : e ∈ keys g) (hconn : ∃ q, IsPath g s e q) :
    ∃ res, dijkstra g s e = some res ∧ IsPath g s e res.path ∧
      res.distance = ((pathWeight g res.path : Nat) : Dist) ∧
      ∀ q, IsPath g s e q → res.distance ≤ ((pathWeight g q : Nat) : Dist) := by
  obtain ⟨res, hloop, hpath, hdist, hmin⟩ :=
    loopE_correct g s e hA hkeys hs (initState g s).pq.elements.length []
      (initState g s) rfl (initState_loopInv g s hN) (initState_optInv g s)
      (by simp) he hconn
  refine ⟨res, ?_, hpath, hdist, hmin⟩
  rw [dijkstra]
  rw [hloop]
  rfl

theorem c1_dijkstra_correct_witness :
    ∃ res, dijkstra gZero "A" "B" = some res ∧ IsPath gZero "A" "B" res.path ∧
      res.distance = ((pathWeight gZero res.path : Nat) : Dist) ∧
      ∀ q, IsPath gZero "A" "B" q →
        res.distance ≤ ((pathWeight gZero q : Nat) : Dist) :=
  c1_dijkstra_correct gZero "A" "B" (by unfold KeysNodup; decide)
    (by intro kv hkv
        simp only [gZero, List.mem_cons, List.not_mem_nil, or_false] at hkv
        rcases hkv with h | h <;> subst h <;> decide)
    (by intro u adj h v w hv
        have hm := lookupA_mem h
        have hm2 := lookupA_mem hv
        simp only [gZero, List.mem_cons, List.not_mem_nil, or_false,
          Prod.mk.injEq] at hm
        rcases hm with ⟨hu, ha⟩ | ⟨hu, ha⟩ <;> subst hu <;> subst ha <;>
          simp only [List.mem_cons, List.not_mem_nil, or_false,
            Prod.mk.injEq] at hm2 <;>
          rcases hm2 with ⟨hv', hw⟩ <;> subst hv' <;> subst hw <;> decide)
    (by decide) (by decide) (by decide)
    ⟨["A", "B"], IsPath.cons "A" "B" "B" 0 ["B"] (by decide)
      (IsPath.single "B" (by decide))⟩

/-- C1 counterexample: a symmetric graph with non-negative integer weights in
which the cheapest A-to-B route goes through the node named "": the path
[A, "", B] has weight 2, but `dijkstra` skips the falsy node name "" (line 32)
and returns the path [A, B] with distance 5, which is not minimal. -/
theorem c1_counterexample :
    SymmetricG gEmptyNode ∧ KeysNodup gEmptyNode ∧ AdjNodup gEmptyNode ∧
      ("A" ∈ keys gEmptyNode) ∧ ("B" ∈ keys gEmptyNode) ∧
      IsPath gEmptyNode "A" "B" ["A", "", "B"] ∧
      pathWeight gEmptyNode ["A", "", "B"] = 2 ∧
      dijkstra gEmptyNode "A" "B" = some ⟨["A", "B"], 5⟩ := by
  refine ⟨?_, by unfold KeysNodup; decide, ?_, by decide, by decide, ?_, by decide,
    by decide⟩
  · intro u adj h v w hv
    have hm := lookupA_mem h
    have hm2 := lookupA_mem hv
    simp only [gEmptyNode, List.mem_cons, List.not_mem_nil, or_false,
      Prod.mk.injEq] at hm
    rcases hm with ⟨hu, ha⟩ | ⟨hu, ha⟩ | ⟨hu, ha⟩ <;> subst hu <;> subst ha <;>
      simp only [List.mem_cons, List.not_mem_nil, or_false, Prod.mk.injEq] at hm2 <;>
      rcases hm2 with ⟨hv', hw⟩ | ⟨hv', hw⟩ <;> subst hv' <;> subst hw <;> decide
  · intro kv hkv
    simp only [gEmptyNode, List.mem_cons, List.not_mem_nil, or_false] at hkv
    rcases hkv with h | h | h <;> subst h <;> decide
  · refine IsPath.cons "A" "" "B" 1 ["", "B"] (by decide) ?_
    refine IsPath.cons "" "B" "B" 1 ["B"] (by decide) ?_
    exact IsPath.single "B" (by decide)

end DijkstraTs
